import Mathlib

/-!
Verification of the toyredis in-memory data structures against their
natural-language specification.  The Rust sources are shallowly embedded:
byte buffers become `List Nat` (each element < 256 where bytes are written),
machine integers become `Nat`/`Int`, fallible or panicking code returns
`Option` (with `none` modelling a panic such as an out-of-bounds index,
a failed `assert!`, a `copy_from_slice` length mismatch, or an integer
underflow in a debug build).
-/

set_option maxRecDepth 100000

/-! ## SDS (src/ds/perfstr/sds.rs) -/

/-- Preallocation ceiling, `MAX_PREALLOC = 1024*1024` in sds.rs. -/
def MAX_PREALLOC : Nat := 1024 * 1024

/-- Model of `SDS`: current length, free trailing capacity, backing buffer.
The Rust `Vec<u8>` buffer is a `List Nat`. -/
structure SDS where
  curLen : Nat
  free : Nat
  data : List Nat
deriving Repr, DecidableEq

/-- The invariant stated by the spec data model: `buffer.len() == length + free`. -/
def SDS.WF (s : SDS) : Prop := s.data.length = s.curLen + s.free

instance (s : SDS) : Decidable s.WF := by unfold SDS.WF; infer_instance

/-- `SDS::empty`. -/
def SDS.empty : SDS := ⟨0, 0, []⟩

/-- Model of `SDS::expand`.  `none` models a Rust panic (slicing
`self.data[..self.cur_len]` when `cur_len` exceeds the buffer, impossible
under `WF`). -/
def SDS.expand (s : SDS) (requiredLen : Nat) : Option SDS :=
  if requiredLen ≤ s.free then
    some s
  else
    let needed := requiredLen + s.curLen
    let newSize := if 2 * needed ≤ MAX_PREALLOC then 2 * needed else needed + MAX_PREALLOC
    -- `let mut new_data = vec![0u8; new_size]; new_data[..cur_len].clone_from_slice(&data[..cur_len])`
    if s.curLen ≤ s.data.length ∧ s.curLen ≤ newSize then
      some ⟨s.curLen, newSize - s.curLen, s.data.take s.curLen ++ List.replicate (newSize - s.curLen) 0⟩
    else
      none

/-- Model of `SDS::append` (the `SmartString` impl): expand, copy the new
bytes at `cur_len..cur_len+n`, bump `cur_len`, decrement `free`.  `none`
models the panics of the slice copy or of the `usize` subtraction
underflowing in a debug build. -/
def SDS.append (s : SDS) (bs : List Nat) : Option SDS := do
  let s1 ← s.expand bs.length
  if s1.curLen + bs.length ≤ s1.data.length ∧ bs.length ≤ s1.free then
    some ⟨s1.curLen + bs.length,
          s1.free - bs.length,
          s1.data.take s1.curLen ++ bs ++ s1.data.drop (s1.curLen + bs.length)⟩
  else
    none

/-- `SDS::val`: the occupied bytes. -/
def SDS.val (s : SDS) : List Nat := s.data.take s.curLen

theorem list_take_len_append (l1 l2 : List Nat) (n : Nat) (h : n = l1.length) :
    (l1 ++ l2).take n = l1 := by
  subst h
  simp

theorem sds_expand_none_case (s : SDS) (r : Nat) (h : ¬ r ≤ s.free)
    (h1 : s.curLen ≤ s.data.length) :
    s.expand r = some ⟨s.curLen,
      (if 2 * (r + s.curLen) ≤ MAX_PREALLOC then 2 * (r + s.curLen) else r + s.curLen + MAX_PREALLOC) - s.curLen,
      s.data.take s.curLen ++ List.replicate
        ((if 2 * (r + s.curLen) ≤ MAX_PREALLOC then 2 * (r + s.curLen) else r + s.curLen + MAX_PREALLOC) - s.curLen) 0⟩ := by
  unfold SDS.expand
  have h2 : s.curLen ≤ (if 2 * (r + s.curLen) ≤ MAX_PREALLOC then 2 * (r + s.curLen) else r + s.curLen + MAX_PREALLOC) := by
    by_cases hc : 2 * (r + s.curLen) ≤ MAX_PREALLOC <;> simp [hc] <;> omega
  simp [h, h1, h2]

/-- C10.  For every well-formed SDS and appended byte list, `append`
succeeds; the value afterwards is the old bytes followed by the appended
bytes; if the free capacity covers the appended bytes the buffer is kept
(no reallocation) and `free` drops by the appended length; otherwise with
`needed = existing length + appended length` the new capacity is
`2*needed` when that is within the 1 MiB ceiling and `needed + 1 MiB`
otherwise, and `free` is the new capacity minus the new length. -/
theorem sds_append_spec (s : SDS) (bs : List Nat) (hwf : s.WF) :
    ∃ s2, s.append bs = some s2 ∧
      s2.val = s.val ++ bs ∧
      s2.curLen = s.curLen + bs.length ∧
      (if bs.length ≤ s.free then
        s2.data.length = s.data.length ∧ s2.free = s.free - bs.length
       else
        s2.data.length = (if 2 * (s.curLen + bs.length) ≤ MAX_PREALLOC
                          then 2 * (s.curLen + bs.length)
                          else s.curLen + bs.length + MAX_PREALLOC) ∧
        s2.free = s2.data.length - s2.curLen) := by
  unfold SDS.WF at hwf
  by_cases hfree : bs.length ≤ s.free
  · -- in-place: expand is a no-op
    have hexp : s.expand bs.length = some s := by unfold SDS.expand; simp [hfree]
    have hle : s.curLen + bs.length ≤ s.data.length := by omega
    refine ⟨⟨s.curLen + bs.length, s.free - bs.length,
      s.data.take s.curLen ++ bs ++ s.data.drop (s.curLen + bs.length)⟩, ?_, ?_, ?_, ?_⟩
    · unfold SDS.append
      rw [hexp]
      simp only [Option.bind_eq_bind, Option.some_bind]
      rw [if_pos ⟨hle, hfree⟩]
    · -- value: take (curLen + n) of (take curLen data ++ bs ++ drop (curLen+n) data)
      unfold SDS.val
      simp only
      exact list_take_len_append _ _ _ (by simp only [List.length_append, List.length_take]; omega)
    · rfl
    · simp only [hfree, if_true]
      refine ⟨?_, trivial⟩
      simp only [List.length_append, List.length_take, List.length_drop]
      omega
  · -- reallocation
    have hexp := sds_expand_none_case s bs.length hfree (by omega)
    set cap := (if 2 * (bs.length + s.curLen) ≤ MAX_PREALLOC then 2 * (bs.length + s.curLen) else bs.length + s.curLen + MAX_PREALLOC) with hcap
    have hcapge : s.curLen + bs.length ≤ cap := by
      rw [hcap]; by_cases hc : 2 * (bs.length + s.curLen) ≤ MAX_PREALLOC <;> simp [hc] <;> omega
    set s1 : SDS := ⟨s.curLen, cap - s.curLen, s.data.take s.curLen ++ List.replicate (cap - s.curLen) 0⟩ with hs1
    have hlen1 : s1.data.length = cap := by
      rw [hs1]; simp only [List.length_append, List.length_take, List.length_replicate]
      omega
    have hle : s1.curLen + bs.length ≤ s1.data.length := by
      rw [hlen1, hs1]; exact hcapge
    have hfree1 : bs.length ≤ s1.free := by rw [hs1]; simp only; omega
    refine ⟨⟨s1.curLen + bs.length, s1.free - bs.length,
      s1.data.take s1.curLen ++ bs ++ s1.data.drop (s1.curLen + bs.length)⟩, ?_, ?_, ?_, ?_⟩
    · unfold SDS.append
      rw [hexp]
      simp only [Option.bind_eq_bind, Option.some_bind]
      rw [if_pos ⟨hle, hfree1⟩]
    · unfold SDS.val
      simp only
      have hA : List.take s.curLen (List.take s.curLen s.data ++ List.replicate (cap - s.curLen) 0)
          = List.take s.curLen s.data :=
        list_take_len_append _ _ _ (by rw [List.length_take]; omega)
      rw [hA]
      exact list_take_len_append _ _ _ (by simp only [List.length_append, List.length_take]; omega)
    · rfl
    · simp only [hfree, if_false]
      have hlen2 : (s1.data.take s1.curLen ++ bs ++ s1.data.drop (s1.curLen + bs.length)).length
          = cap := by
        simp only [hs1, List.length_append, List.length_take, List.length_drop,
          List.length_replicate]
        omega
      refine ⟨?_, ?_⟩
      · simp only at hlen2 ⊢
        rw [hlen2, hcap]
        have hc : bs.length + s.curLen = s.curLen + bs.length := by omega
        rw [hc]
      · simp only at hlen2 ⊢
        rw [hlen2]
        have hcurlen : s1.curLen = s.curLen := rfl
        rw [hcurlen]
        omega

/-- Witness for C10 at a concrete input: an SDS of length 2 with one free
byte, appending one byte, lands in the in-place case. -/
theorem sds_append_spec_witness :
    ∃ s2, (SDS.mk 2 1 [7, 8, 0]).append [9] = some s2 ∧
      s2.val = (SDS.mk 2 1 [7, 8, 0]).val ++ [9] ∧
      s2.curLen = (SDS.mk 2 1 [7, 8, 0]).curLen + [9].length ∧
      (if [9].length ≤ (SDS.mk 2 1 [7, 8, 0]).free then
        s2.data.length = (SDS.mk 2 1 [7, 8, 0]).data.length ∧
          s2.free = (SDS.mk 2 1 [7, 8, 0]).free - [9].length
       else
        s2.data.length = (if 2 * ((SDS.mk 2 1 [7, 8, 0]).curLen + [9].length) ≤ MAX_PREALLOC
                          then 2 * ((SDS.mk 2 1 [7, 8, 0]).curLen + [9].length)
                          else (SDS.mk 2 1 [7, 8, 0]).curLen + [9].length + MAX_PREALLOC) ∧
        s2.free = s2.data.length - s2.curLen) :=
  sds_append_spec (SDS.mk 2 1 [7, 8, 0]) [9] (by decide)

/-! ## Ziplist (src/ds/ziplist.rs) -/

/-- Ziplist header layout constants from ziplist.rs. -/
def ZIPLIST_BYTES_OFF : Nat := 0

def ZIPLIST_TAILOFF_OFF : Nat := 4

def ZIPLIST_LEN_OFF : Nat := 8

def ZIPLIST_HEADER_SIZE : Nat := 10

def ZIPLIST_CONTENT_OFF : Nat := 10

/-- `ZIPLIST_I16_ENC = 0b1100_0000`. -/
def ZIPLIST_I16_ENC : Nat := 0xC0

/-- `ZIPLIST_I32_ENC = 0b1101_0000`. -/
def ZIPLIST_I32_ENC : Nat := 0xD0

/-- `ZIPLIST_I64_ENC = 0b1110_0000`. -/
def ZIPLIST_I64_ENC : Nat := 0xE0

/-- `ZIPLIST_I24_ENC = 0b1111_0000`. -/
def ZIPLIST_I24_ENC : Nat := 0xF0

/-- `ZIPLIST_I8_ENC = 0b1111_1110`. -/
def ZIPLIST_I8_ENC : Nat := 0xFE

/-- The `ZLError` kinds of error.rs relevant to the embedded functions. -/
inductive ZLError where
  | invalidEntryEncoding
deriving Repr, DecidableEq

/-- The `Encoding` enum of ziplist.rs: a string length or an i64 value. -/
inductive Encoding where
  | String (sz : Nat)
  | Integer (i : Int)
deriving Repr, DecidableEq

/-- `Encoding::is_str`. -/
def Encoding.isStr : Encoding → Bool
  | .String _ => true
  | .Integer _ => false

/-- `Encoding::encoding_len`.  `none` models the failed
`assert!(*sz < 1 << 32)` for oversized strings. -/
def Encoding.encodingLen : Encoding → Option Nat
  | .String sz =>
    if sz < 1 <<< 6 then some 1
    else if sz < 1 <<< 14 then some 2
    else if sz < 1 <<< 32 then some 5
    else none
  | .Integer i =>
    some (if 0 ≤ i ∧ i ≤ 12 then 1
      else if -128 ≤ i ∧ i ≤ 127 then 2
      else if -32768 ≤ i ∧ i ≤ 32767 then 3
      else if -(1 <<< 23 : Int) ≤ i ∧ i ≤ (1 <<< 23 : Int) - 1 then 4
      else if -2147483648 ≤ i ∧ i ≤ 2147483647 then 5
      else 9)

/-- `Encoding::encoding_len_with_content`. -/
def Encoding.encodingLenWithContent (e : Encoding) : Option Nat := do
  let len ← e.encodingLen
  match e with
  | .String sz => some (len + sz)
  | .Integer _ => some len

/-- `Encoding::encoding_index_str`.  `none` on an index past the encoding
or on the `unreachable!()` of `unwrap_str`. -/
def Encoding.encodingIndexStr (e : Encoding) (idx : Nat) : Option Nat := do
  let len ← e.encodingLen
  if idx = 0 ∧ len = 5 then some 0x80
  else if len ≤ idx then none
  else
    let v0 : Nat := if idx = 0 ∧ len = 2 then 0x40 else 0
    match e with
    | .String sz => some (v0 ||| ((sz >>> ((len - idx - 1) * 8)) &&& 0xFF))
    | .Integer _ => none

/-- `Encoding::encoding_index_int`.  The byte at `idx` of the encoded
integer; arithmetic right shift of the i64 is floor division and `& 0xff`
is `emod 256`. -/
def Encoding.encodingIndexInt (e : Encoding) (idx : Nat) : Option Nat := do
  let len ← e.encodingLen
  if len ≤ idx then none
  else
    match e with
    | .String _ => none
    | .Integer i =>
      if idx = 0 then
        match len with
        | 1 => some (((i.emod 256).toNat) ||| 0xF0)
        | 2 => some ZIPLIST_I8_ENC
        | 3 => some ZIPLIST_I16_ENC
        | 4 => some ZIPLIST_I24_ENC
        | 5 => some ZIPLIST_I32_ENC
        | 9 => some ZIPLIST_I64_ENC
        | _ => none
      else
        some (((i.fdiv ((2 : Int) ^ ((len - idx - 1) * 8))).emod 256).toNat)

/-- `Encoding::encoding_bytes_by_index`. -/
def Encoding.encodingBytesByIndex (e : Encoding) (idx : Nat) : Option Nat :=
  match e with
  | .String _ => e.encodingIndexStr idx
  | .Integer _ => e.encodingIndexInt idx

/-- The byte sequence produced by `EncodingIter`: the bytes at indices
`0, 1, ...` up to `encoding_len`. -/
def Encoding.encodingBytes (e : Encoding) : Option (List Nat) := do
  let len ← e.encodingLen
  (List.range len).mapM (fun idx => e.encodingBytesByIndex idx)

/-- Big-endian accumulation `v <<= 8; v |= src[i]` over `cnt` bytes
starting at `start`; `none` models an out-of-bounds index panic. -/
def readBEBytes (src : List Nat) (start cnt : Nat) (v : Nat) : Option Nat :=
  match cnt with
  | 0 => some v
  | n + 1 => do
    let b ← src.get? start
    readBEBytes src (start + 1) n ((v <<< 8) ||| b)

/-- Signed big-endian accumulation of `parse_int_encoding`:
`v <<= 8; v |= byte as i64` over an `Int` accumulator. -/
def readIntBE (src : List Nat) (start cnt : Nat) (v : Int) : Option Int :=
  match cnt with
  | 0 => some v
  | n + 1 => do
    let b ← src.get? start
    readIntBE src (start + 1) n (v * 256 + b)

/-- `Encoding::parse_str_encoding`.  The final `_ => panic!` arm is `none`. -/
def Encoding.parseStrEncoding (src : List Nat) : Option (Except ZLError Encoding) := do
  let b0 ← src.get? 0
  let szOpt : Option Nat :=
    if b0 &&& 0xC0 = 0x00 then some 1
    else if b0 &&& 0xC0 = 0x40 then some 2
    else if b0 &&& 0xC0 = 0x80 then some 5
    else none
  let sz ← szOpt
  let v ← readBEBytes src 1 (sz - 1) (b0 &&& 0x3F)
  some (Except.ok (Encoding.String v))

/-- `Encoding::parse_int_encoding`.  Outer `none` is an index panic;
`Except.error` is the returned `ZLError`. -/
def Encoding.parseIntEncoding (src : List Nat) : Option (Except ZLError Encoding) := do
  let b0 ← src.get? 0
  let szOpt : Option Nat :=
    if b0 = ZIPLIST_I8_ENC then some 1
    else if b0 = ZIPLIST_I16_ENC then some 2
    else if b0 = ZIPLIST_I24_ENC then some 3
    else if b0 = ZIPLIST_I32_ENC then some 4
    else if b0 = ZIPLIST_I64_ENC then some 8
    else none
  match szOpt with
  | none =>
    if b0 >>> 4 ≠ 0xF then some (Except.error ZLError.invalidEntryEncoding)
    else
      let k := b0 &&& 0xF
      if 0 < k ∧ k < 12 then some (Except.ok (Encoding.Integer k))
      else some (Except.error ZLError.invalidEntryEncoding)
  | some sz => do
    let b1 ← src.get? 1
    let v0 : Int := if b1 >>> 7 = 1 then -1 else 0
    let v ← readIntBE src 1 sz v0
    some (Except.ok (Encoding.Integer v))

/-- `Encoding::parse`. -/
def Encoding.parse (src : List Nat) : Option (Except ZLError Encoding) := do
  let b0 ← src.get? 0
  if b0 &&& 0xC0 = 0xC0 then Encoding.parseIntEncoding src
  else Encoding.parseStrEncoding src

/-- The `ZipEntryValue` enum. -/
inductive ZipEntryValue where
  | Bytes (bs : List Nat)
  | Int (i : Int)
deriving Repr, DecidableEq

/-- The read-only `ZipEntry` struct. -/
structure ZipEntry where
  prevrawlen : Nat
  prevrawlenSize : Nat
  encoding : Encoding
deriving Repr, DecidableEq

/-- `ZipEntry::prevrawlen_size`. -/
def prevrawlenSizeOf (len : Nat) : Nat :=
  if len < 0xFE then 1 else 5

/-- `ZipEntry::parse_prevrawlen`. -/
def parsePrevrawlen (src : List Nat) : Option Nat := do
  let b0 ← src.get? 0
  if b0 < 0xFE then some b0
  else readBEBytes src 1 4 0

/-- `ZipEntry::encode_prevrawlen`.  In the 5-byte branch the source sets
`v[0] = 0xfe` and then calls `BigEndian::write_u32(&mut v, prevrawlen as u32)`,
which writes the four big-endian bytes at offsets 0..4 (overwriting the
marker), leaving `v[4] = 0`. -/
def encodePrevrawlen (prevrawlen : Nat) : List Nat :=
  if prevrawlen < 0xFE then [prevrawlen]
  else
    let q := prevrawlen % (2 ^ 32)
    [(q >>> 24) &&& 0xFF, (q >>> 16) &&& 0xFF, (q >>> 8) &&& 0xFF, q &&& 0xFF, 0]

/-- `ZipEntry::parse` (the `Encoding::parse(..).unwrap()` panics on an
`Err`, hence `none`). -/
def ZipEntry.parse (src : List Nat) : Option ZipEntry := do
  let p ← parsePrevrawlen src
  let psz := prevrawlenSizeOf p
  let encR ← Encoding.parse (src.drop psz)
  match encR with
  | .ok e => some (ZipEntry.mk p psz e)
  | .error _ => none

/-- `ZipEntry::check_len`. -/
def ZipEntry.checkLen (src : List Nat) : Option Nat := do
  let p ← parsePrevrawlen src
  let psz := prevrawlenSizeOf p
  let encR ← Encoding.parse (src.drop psz)
  match encR with
  | .ok e => do
    let l ← e.encodingLenWithContent
    some (psz + l)
  | .error _ => none

/-- `ZipEntry::header_size`. -/
def ZipEntry.headerSize (ze : ZipEntry) : Option Nat := do
  let l ← ze.encoding.encodingLen
  some (ze.prevrawlenSize + l)

/-- `ZipEntry::entry_size`. -/
def ZipEntry.entrySize (ze : ZipEntry) : Option Nat := do
  let l ← ze.encoding.encodingLenWithContent
  some (ze.prevrawlenSize + l)

/-- `ZipEntry::value`: slices `bytes[header_size..header_size+sz]` for a
string (panicking when out of range), or returns the decoded integer. -/
def ZipEntry.value (ze : ZipEntry) (bytes : List Nat) : Option ZipEntryValue := do
  let hs ← ze.headerSize
  match ze.encoding with
  | .String sz =>
    if hs + sz ≤ bytes.length then some (ZipEntryValue.Bytes ((bytes.drop hs).take sz))
    else none
  | .Integer i => some (ZipEntryValue.Int i)

/-- The prevrawlen bytes produced inside `ZipEntry::iter`; the 5-byte
branch has the same marker-clobbering `write_u32` as `encode_prevrawlen`. -/
def ZipEntry.iterPrevBytes (ze : ZipEntry) : List Nat :=
  if ze.prevrawlenSize = 1 then [ze.prevrawlen % 256]
  else
    let q := ze.prevrawlen % (2 ^ 32)
    [(q >>> 24) &&& 0xFF, (q >>> 16) &&& 0xFF, (q >>> 8) &&& 0xFF, q &&& 0xFF, 0]

/-- The byte sequence produced by `ZipEntry::iter(bytes)`: prevrawlen
bytes, then the encoding bytes, then — for strings — `bytes[header_size..]`
(the source passes the raw content here, so the first `header_size`
content bytes are dropped; slicing past the end panics). -/
def ZipEntry.iterBytes (ze : ZipEntry) (bytes : List Nat) : Option (List Nat) := do
  let encBytes ← ze.encoding.encodingBytes
  let hs ← ze.headerSize
  let content ←
    if ze.encoding.isStr then
      if hs ≤ bytes.length then some (bytes.drop hs) else none
    else some ([] : List Nat)
  some (ze.iterPrevBytes ++ encBytes ++ content)

/-- Model of `ZipList`: the backing `Vec<u8>`. -/
def ZipListBytes := List Nat

/-- Write `bs` over the bytes of `l` starting at `off` (in-bounds slice
assignment). -/
def writeBytesAt (l : List Nat) (off : Nat) (bs : List Nat) : List Nat :=
  l.take off ++ bs ++ l.drop (off + bs.length)

/-- `BigEndian::write_u32(&mut self.0[off..], v)`: writes the four
big-endian bytes of `v as u32`; panics (`none`) when fewer than four bytes
remain. -/
def writeU32 (l : List Nat) (off : Nat) (v : Nat) : Option (List Nat) :=
  if off + 4 ≤ l.length then
    let q := v % (2 ^ 32)
    some (writeBytesAt l off [(q >>> 24) &&& 0xFF, (q >>> 16) &&& 0xFF, (q >>> 8) &&& 0xFF, q &&& 0xFF])
  else none

/-- `BigEndian::write_u16`, as `writeU32`. -/
def writeU16 (l : List Nat) (off : Nat) (v : Nat) : Option (List Nat) :=
  if off + 2 ≤ l.length then
    let q := v % (2 ^ 16)
    some (writeBytesAt l off [(q >>> 8) &&& 0xFF, q &&& 0xFF])
  else none

/-- `BigEndian::read_u32(&self.0[off..])`. -/
def readU32 (l : List Nat) (off : Nat) : Option Nat :=
  readBEBytes l off 4 0

/-- `BigEndian::read_u16(&self.0[off..])`. -/
def readU16 (l : List Nat) (off : Nat) : Option Nat :=
  readBEBytes l off 2 0

/-- `ZipList::new`: a 10-byte header recording total length 10 and tail
offset 10. -/
def ZipList.new : List Nat := [0, 0, 0, 10, 0, 0, 0, 10, 0, 0]

/-- `set_entry_cnt`'s saturation: `if len >= 0xffff { 0xffff } else { len }`. -/
def saturateCnt (len : Nat) : Nat :=
  if len ≥ 0xFFFF then 0xFFFF else len

/-- `ZipList::push_tail`: find the previous tail entry's size, splice in
zeroes at the end, write the entry bytes produced by `ZipEntry::iter`,
then update the three header fields. -/
def ZipList.pushTail (zl : List Nat) (encoding : Encoding) (content : List Nat) :
    Option (List Nat) := do
  let tailOffset0 ← readU32 zl ZIPLIST_TAILOFF_OFF
  let cnt ← readU16 zl ZIPLIST_LEN_OFF
  let prevrawlen ← if cnt > 0 then ZipEntry.checkLen (zl.drop tailOffset0) else some 0
  let tailOffset := tailOffset0 + prevrawlen
  let psz := prevrawlenSizeOf prevrawlen
  let ze : ZipEntry := ZipEntry.mk prevrawlen psz encoding
  let lwc ← encoding.encodingLenWithContent
  let requiredLen := psz + lwc
  if tailOffset ≤ zl.length then
    let buf1 := zl.take tailOffset ++ List.replicate requiredLen 0 ++ zl.drop tailOffset
    let ib ← ze.iterBytes content
    -- `iter_mut().zip(..)` writes min(dest, src) bytes
    let dest := buf1.drop tailOffset
    let buf2 := buf1.take tailOffset ++ (ib.take dest.length ++ dest.drop ib.length)
    let bsz ← readU32 buf2 ZIPLIST_BYTES_OFF
    let buf3 ← writeU32 buf2 ZIPLIST_BYTES_OFF (bsz + requiredLen)
    let buf4 ← writeU32 buf3 ZIPLIST_TAILOFF_OFF tailOffset
    let buf5 ← writeU16 buf4 ZIPLIST_LEN_OFF (saturateCnt (cnt + 1))
    some buf5
  else none

/-- `ZipList::push_tail_string`. -/
def ZipList.pushTailString (zl : List Nat) (content : List Nat) : Option (List Nat) :=
  ZipList.pushTail zl (Encoding.String content.length) content

/-- `ZipList::push_tail_int`. -/
def ZipList.pushTailInt (zl : List Nat) (val : Int) : Option (List Nat) :=
  ZipList.pushTail zl (Encoding.Integer val) []

/-- `Vec::copy_within(srcStart..srcEnd, dest)` (memmove semantics; panics
out of bounds). -/
def copyWithin (l : List Nat) (srcStart srcEnd dest : Nat) : Option (List Nat) :=
  if srcStart ≤ srcEnd ∧ srcEnd ≤ l.length ∧ dest + (srcEnd - srcStart) ≤ l.length then
    some (writeBytesAt l dest ((l.drop srcStart).take (srcEnd - srcStart)))
  else none

/-- The `while offset >= ZIPLIST_CONTENT_OFF` loop of `ZipList::count_entry`,
with explicit fuel. -/
def countEntryLoop (zl : List Nat) : Nat → Nat → Nat → Option Nat
  | 0, _, _ => none
  | fuel + 1, offset, cnt =>
    if offset ≥ ZIPLIST_CONTENT_OFF then do
      let skip ← parsePrevrawlen (zl.drop offset)
      if skip = 0 then some (cnt + 1)
      else countEntryLoop zl fuel (offset - skip) (cnt + 1)
    else some cnt

/-- `ZipList::count_entry`. -/
def ZipList.countEntry (zl : List Nat) : Option Nat := do
  let off ← readU32 zl ZIPLIST_TAILOFF_OFF
  countEntryLoop zl (zl.length + 1) off 0

/-- The rewrite loop of `ZipList::pop_front`
(`while next_off < ori_bytes`), with explicit fuel.  The
`self.0[cur_offset..].copy_from_slice(&prevlen_bytes)` of the source
panics (`none`) unless the whole remaining buffer has exactly the length
of the encoded prevrawlen. -/
def popLoop (oriBytes : Nat) : Nat → List Nat → Nat → Nat → Nat → Bool →
    Option (List Nat × Nat)
  | 0, _, _, _, _, _ => none
  | fuel + 1, buf, curOffset, nextOff, lastSize, prevlenChanged =>
    if nextOff < oriBytes then do
      let entry ← ZipEntry.parse (buf.drop nextOff)
      let entrySize ← entry.entrySize
      if prevlenChanged then
        let changed2 := if entry.prevrawlenSize = lastSize then false else true
        let prevlenBytes := encodePrevrawlen lastSize
        if buf.length - curOffset = prevlenBytes.length then
          let buf1 := writeBytesAt buf curOffset prevlenBytes
          let cur1 := curOffset + prevlenBytes.length
          let buf2 ← copyWithin buf1 (nextOff + entry.prevrawlenSize) (nextOff + entrySize) cur1
          let cur2 := cur1 + (entrySize - entry.prevrawlenSize)
          let last2 := prevlenBytes.length + entrySize - entry.prevrawlenSize
          popLoop oriBytes fuel buf2 cur2 (nextOff + entrySize) last2 changed2
        else none
      else do
        let buf2 ← copyWithin buf nextOff (nextOff + entrySize) curOffset
        popLoop oriBytes fuel buf2 (curOffset + entrySize) (nextOff + entrySize) entrySize false
    else some (buf, curOffset)

/-- `ZipList::pop_front`.  Returns `some (none, zl)` on an empty list and
`none` when the source would panic. -/
def ZipList.popFront (zl : List Nat) : Option (Option ZipEntryValue × List Nat) := do
  let cnt ← readU16 zl ZIPLIST_LEN_OFF
  if cnt = 0 then some (none, zl)
  else do
    let first ← ZipEntry.parse (zl.drop ZIPLIST_HEADER_SIZE)
    let val ← first.value (zl.drop ZIPLIST_HEADER_SIZE)
    let fes ← first.entrySize
    let oriBytes ← readU32 zl ZIPLIST_BYTES_OFF
    let (buf, curOffset) ←
      popLoop oriBytes (oriBytes + 1) zl ZIPLIST_HEADER_SIZE (ZIPLIST_HEADER_SIZE + fes) 0 true
    let buf1 ← writeU32 buf ZIPLIST_BYTES_OFF (oriBytes - fes)
    let buf2 ← writeU32 buf1 ZIPLIST_TAILOFF_OFF curOffset
    let oriCnt ← readU16 buf2 ZIPLIST_LEN_OFF
    let buf3 ←
      if oriCnt < 0xFFFF then writeU16 buf2 ZIPLIST_LEN_OFF (saturateCnt (oriCnt - 1))
      else do
        let c ← ZipList.countEntry buf2
        writeU16 buf2 ZIPLIST_LEN_OFF (saturateCnt c)
    some (some val, buf3)

/-- A ziplist holding the integer entries 1 then 2 (both parse-safe
immediates), built by `push_tail_int`. -/
def zlTwoInts : Option (List Nat) :=
  (ZipList.pushTailInt ZipList.new 1).bind (fun z => ZipList.pushTailInt z 2)

/-- C4.  `pop_front` on a ziplist holding two entries does not remove the
first entry and rewrite the rest: the first pass of the rewrite loop calls
`self.0[cur_offset..].copy_from_slice(&prevlen_bytes)` with a destination
slice that spans the whole remaining buffer, whose length cannot match the
1- or 5-byte prevrawlen encoding, so the call panics.  The list really
holds two entries (stored count 2), and popping the single-entry list
works, so the panic is specific to the multi-entry rewrite pass. -/
theorem ziplist_pop_front_two_entries_panics :
    zlTwoInts.bind ZipList.popFront = none ∧
    zlTwoInts.bind (fun z => readU16 z ZIPLIST_LEN_OFF) = some 2 ∧
    (ZipList.pushTailInt ZipList.new 1).bind ZipList.popFront
      = some (some (ZipEntryValue.Int 1), [0, 0, 0, 10, 0, 0, 0, 10, 0, 0, 0, 241]) := by
  refine ⟨?_, ?_, ?_⟩ <;> rfl

/-- C5.  Integer round-trip fails at 0 and 12: the encoder emits the bare
immediate tag `0b1111_0000 | v`, so 0 becomes `0xF0`, which is exactly
`ZIPLIST_I24_ENC`, making the parser read three content bytes that the
entry does not have (an out-of-bounds panic on a freshly pushed entry);
and 12 becomes `0xFC`, which `parse_int_encoding` rejects
(`k > 0 && k < 12` excludes 12) with `InvalidEntryEncoding`.  Value 13
(the first non-immediate) round-trips fine. -/
theorem ziplist_int_roundtrip_fails_at_0_and_12 :
    Encoding.encodingBytes (Encoding.Integer 0) = some [ZIPLIST_I24_ENC] ∧
    Encoding.parseIntEncoding [ZIPLIST_I24_ENC] = none ∧
    Encoding.encodingBytes (Encoding.Integer 12) = some [0xFC] ∧
    Encoding.parseIntEncoding [0xFC] = some (Except.error ZLError.invalidEntryEncoding) ∧
    Encoding.encodingBytes (Encoding.Integer 13) = some [ZIPLIST_I8_ENC, 13] ∧
    Encoding.parseIntEncoding [ZIPLIST_I8_ENC, 13] = some (Except.ok (Encoding.Integer 13)) := by
  refine ⟨?_, ?_, ?_, ?_, ?_, ?_⟩ <;> rfl

/-- A ziplist whose first entry (a 251-byte string) has total size 254,
followed by an integer entry pushed after it. -/
def zlBigPrev : Option (List Nat) :=
  (ZipList.pushTailString ZipList.new (List.replicate 251 7)).bind
    (fun z => ZipList.pushTailInt z 1)

/-- C6.  When the predecessor's total size is 254 (≥ 254), the new
entry's prevrawlen field written by `push_tail` is NOT a 0xFE marker
followed by the size in big-endian: the `write_u32` in the entry writer
overwrites the marker byte, producing `[0, 0, 0, 254, 0]`, and parsing
that field back yields 0, not the predecessor's size.  The predecessor's
size really is 254, and the below-254 branch does write the single size
byte (`encode_prevrawlen 100 = [100]`). -/
theorem ziplist_prevrawlen_marker_clobbered :
    (ZipList.pushTailString ZipList.new (List.replicate 251 7)).bind
        (fun z => ZipEntry.checkLen (z.drop ZIPLIST_HEADER_SIZE)) = some 254 ∧
    zlBigPrev.bind (fun z => some ((z.drop 264).take 5)) = some [0, 0, 0, 254, 0] ∧
    zlBigPrev.bind (fun z => readU32 z ZIPLIST_TAILOFF_OFF) = some 264 ∧
    zlBigPrev.bind (fun z => parsePrevrawlen (z.drop 264)) = some 0 ∧
    encodePrevrawlen 254 = [0, 0, 0, 254, 0] ∧
    encodePrevrawlen 100 = [100] := by
  refine ⟨?_, ?_, ?_, ?_, ?_, ?_⟩ <;> rfl

/-! ## Dict and HashTable (src/ds/dict.rs)

Keys and values are specialised to `Nat` (an SDS key stands for its byte
content); the `BuildHasher` is a parameter `hash : Nat → Nat`.  Masking by
`(1 << exp) - 1` (the `remain!` macro) is written `% 2 ^ exp`. -/

/-- One hash-slot chain of `(key, value)` nodes. -/
abbrev Chain := List (Nat × Nat)

/-- The chain walk of `HashTable::get`. -/
def chainGet (k : Nat) : Chain → Option Nat
  | [] => none
  | (k2, v) :: t => if k2 = k then some v else chainGet k t

/-- The chain walk of `HashTable::insert`: replace in place when the key
is found, otherwise append a node at the end; returns the displaced
value. -/
def chainInsert (k v : Nat) : Chain → Chain × Option Nat
  | [] => ([(k, v)], none)
  | (k2, v2) :: t =>
    if k2 = k then ((k, v) :: t, some v2)
    else
      let r := chainInsert k v t
      ((k2, v2) :: r.1, r.2)

/-- The chain walk of `HashTable::remove`: splice out the first node with
the key. -/
def chainRemove (k : Nat) : Chain → Chain × Option Nat
  | [] => ([], none)
  | (k2, v2) :: t =>
    if k2 = k then (t, some v2)
    else
      let r := chainRemove k t
      ((k2, v2) :: r.1, r.2)

/-- The `HashTable` struct: chained slots, live count, and the slot-count
exponent. -/
structure HTable where
  slots : List Chain
  cnt : Nat
  exp : Nat
deriving Repr, DecidableEq

/-- `HashTable::slots_cnt`. -/
def HTable.slotsCnt (t : HTable) : Nat := 1 <<< t.exp

/-- `HashTable::need_expand`: load factor ≥ 1.0. -/
def HTable.needExpand (t : HTable) : Bool := t.cnt ≥ t.slotsCnt

/-- The `MIN_EXP..size` loop of `HashTable::compute_exp`; falls through
to 64. -/
def computeExpLoop (size : Nat) : Nat → Nat → Nat
  | 0, _ => 64
  | fuel + 1, i => if size ≤ 1 <<< i then i else computeExpLoop size fuel (i + 1)

/-- `HashTable::compute_exp`.  `none` models the failed
`assert!(size <= 63)`. -/
def computeExp (size : Nat) : Option Nat :=
  if size ≤ 63 then some (computeExpLoop size (size - 2) 2) else none

/-- `HashTable::with_capacity_and_hasher`. -/
def htWithCapacity (size : Nat) : Option HTable := do
  let exp ← computeExp size
  some (HTable.mk (List.replicate (1 <<< exp) []) 0 exp)

/-- `HashTable::insert`. -/
def HTable.insert (hash : Nat → Nat) (t : HTable) (k v : Nat) : HTable × Option Nat :=
  let i := hash k % 2 ^ t.exp
  let r := chainInsert k v (t.slots.getD i [])
  (HTable.mk (t.slots.set i r.1) (if r.2 = none then t.cnt + 1 else t.cnt) t.exp, r.2)

/-- `HashTable::get`. -/
def HTable.get (hash : Nat → Nat) (t : HTable) (k : Nat) : Option Nat :=
  chainGet k (t.slots.getD (hash k % 2 ^ t.exp) [])

/-- `HashTable::remove`.  The `cnt -= 1` only runs when a node was found,
so the u64 subtraction cannot underflow while `cnt` counts the nodes. -/
def HTable.remove (hash : Nat → Nat) (t : HTable) (k : Nat) : HTable × Option Nat :=
  let i := hash k % 2 ^ t.exp
  let r := chainRemove k (t.slots.getD i [])
  match r.2 with
  | some v => (HTable.mk (t.slots.set i r.1) (t.cnt - 1) t.exp, some v)
  | none => (t, none)

/-- The `Dict` struct: main table, optional back table, optional rehash
cursor. -/
structure DictM where
  main : HTable
  back : Option HTable
  rehashIdx : Option Nat
deriving Repr, DecidableEq

/-- `Dict::new` (a 4-slot main table via `with_capacity_and_hasher(4, ..)`). -/
def dictNew : Option DictM := do
  let t ← htWithCapacity 4
  some (DictM.mk t none none)

/-- `Dict::is_rehashing`. -/
def DictM.isRehashing (d : DictM) : Bool := d.rehashIdx.isSome

/-- `Dict::start_rehashing`: allocate a back table with double the main
table's slot count, cursor 0. -/
def DictM.startRehashing (d : DictM) : Option DictM :=
  if d.isRehashing then some d
  else do
    let b ← htWithCapacity (2 * d.main.slotsCnt)
    some (DictM.mk d.main (some b) (some 0))

/-- The inner chain walk of `try_rehash_step`: move every node of the
slot into the back table, decrementing the main count per node. -/
def migrateChain (hash : Nat → Nat) (b : HTable) : Chain → HTable
  | [] => b
  | (k, v) :: t => migrateChain hash (b.insert hash k v).1 t

/-- The `for idx in start_idx..=max_slots_idx_to_check` loop of
`try_rehash_step`.  `fuel` is exactly the size of the index range, so the
recursion mirrors the loop; the final `Nat` of the result counts the slot
indices examined (instrumentation only).  `none` models the panic of
`self.main_table.slots[idx]` when `idx` runs past the slot vector, the
`unwrap` of a missing back table, and the `step -= 1` underflow (callers
always pass `step = 1`). -/
def rehashLoop (hash : Nat → Nat) :
    Nat → Nat → Nat → Nat → Nat → HTable → Option HTable →
    Option (HTable × Option HTable × Nat × Nat)
  | 0, _, _, latest, visited, m, b => some (m, b, latest, visited)
  | fuel + 1, idx, step, _, visited, m, b =>
    if idx < m.slots.length then
      let chain := m.slots.getD idx []
      if chain.isEmpty then rehashLoop hash fuel (idx + 1) step idx (visited + 1) m b
      else
        match b with
        | none => none
        | some bt =>
          let b2 := migrateChain hash bt chain
          let m2 := HTable.mk (m.slots.set idx []) (m.cnt - chain.length) m.exp
          if step = 0 then none
          else if step - 1 = 0 ∨ m2.cnt = 0 then some (m2, some b2, idx, visited + 1)
          else rehashLoop hash fuel (idx + 1) (step - 1) idx (visited + 1) m2 (some b2)
    else none

/-- `Dict::try_rehash_step`.  The scan bound is
`(10 * step + start_idx).max(slots_cnt - 1)` — a `max`, exactly as in the
source.  The returned `Nat` is the instrumentation count of slots
examined. -/
def DictM.tryRehashStep (hash : Nat → Nat) (step : Nat) (d : DictM) :
    Option (DictM × Nat) :=
  match d.rehashIdx with
  | none => some (d, 0)
  | some startIdx =>
    let m := d.main
    let maxIdx := max (10 * step + startIdx) (m.slotsCnt - 1)
    let fuel := maxIdx + 1 - startIdx
    match rehashLoop hash fuel startIdx step startIdx 0 m d.back with
    | none => none
    | some (m2, b2, latest, visited) =>
      if m2.cnt = 0 ∨ latest ≥ m2.slotsCnt then
        match b2 with
        | none => none
        | some bt => some (DictM.mk bt none none, visited)
      else some (DictM.mk m2 b2 (some latest), visited)

/-- `Dict::value_cnt`. -/
def DictM.valueCnt (d : DictM) : Nat :=
  d.main.cnt + (match d.back with | some b => b.cnt | none => 0)

/-- `Dict::insert`. -/
def DictM.insert (hash : Nat → Nat) (d : DictM) (k v : Nat) :
    Option (DictM × Option Nat) := do
  let (d1, _) ← d.tryRehashStep hash 1
  match d1.rehashIdx with
  | some _ =>
    let rm := d1.main.remove hash k
    match d1.back with
    | none => none
    | some b =>
      let ri := b.insert hash k v
      some (DictM.mk rm.1 (some ri.1) d1.rehashIdx,
            if ri.2.isSome then ri.2 else rm.2)
  | none =>
    let ri := d1.main.insert hash k v
    if ri.2 = none ∧ ri.1.needExpand then do
      let d2 ← (DictM.mk ri.1 d1.back d1.rehashIdx).startRehashing
      some (d2, ri.2)
    else some (DictM.mk ri.1 d1.back d1.rehashIdx, ri.2)

/-- `Dict::remove`: one rehash step, then back table first, then main. -/
def DictM.remove (hash : Nat → Nat) (d : DictM) (k : Nat) :
    Option (DictM × Option Nat) := do
  let (d1, _) ← d.tryRehashStep hash 1
  match d1.back with
  | some b =>
    let rb := b.remove hash k
    if rb.2.isSome then some (DictM.mk d1.main (some rb.1) d1.rehashIdx, rb.2)
    else
      let rm := d1.main.remove hash k
      some (DictM.mk rm.1 (some rb.1) d1.rehashIdx, rm.2)
  | none =>
    let rm := d1.main.remove hash k
    some (DictM.mk rm.1 d1.back d1.rehashIdx, rm.2)

/-- `Dict::get`: short-circuits on an empty dict, otherwise one rehash
step, then back table first, then main. -/
def DictM.get (hash : Nat → Nat) (d : DictM) (k : Nat) :
    Option (DictM × Option Nat) :=
  if d.valueCnt = 0 then some (d, none)
  else do
    let (d1, _) ← d.tryRehashStep hash 1
    let r := match d1.back with
      | some b =>
        match b.get hash k with
        | some v => some v
        | none => d1.main.get hash k
      | none => d1.main.get hash k
    some (d1, r)

/-- Dict operations for whole-sequence runs. -/
inductive DOp where
  | ins (k v : Nat)
  | rem (k : Nat)
  | getOp (k : Nat)
deriving Repr, DecidableEq

/-- Run one operation, discarding the returned value. -/
def runDOp (hash : Nat → Nat) (d : DictM) : DOp → Option DictM
  | .ins k v => (d.insert hash k v).map Prod.fst
  | .rem k => (d.remove hash k).map Prod.fst
  | .getOp k => (d.get hash k).map Prod.fst

/-- Run a sequence of operations from `Dict::new`. -/
def runDOps (hash : Nat → Nat) (ops : List DOp) : Option DictM := do
  let d0 ← dictNew
  ops.foldlM (runDOp hash) d0

/-- The identity hash, a legitimate `BuildHasher` choice (the tests of
dict.rs use a comparable first-byte hasher). -/
def idHash : Nat → Nat := fun k => k

/-- C1.  Dict operations are not total.  With a first-byte-style hasher
(identity on the modelled keys), inserting keys 0,1,2,3 triggers a rehash,
removing 3 and then 2 empties the main table while the rehash is still in
progress, and the next operation's rehash step walks
`start_idx..=max(10*step+start_idx, slots_cnt-1)` over the 4-slot table,
indexing `slots[4]` — out of bounds, a panic (`none`).  Additionally,
growth past 32 slots calls `compute_exp(64)`, whose `assert!(size <= 63)`
fails. -/
theorem dict_operations_panic :
    runDOps idHash
      [DOp.ins 0 0, DOp.ins 1 1, DOp.ins 2 2, DOp.ins 3 3,
       DOp.rem 3, DOp.rem 2, DOp.getOp 0] = none ∧
    computeExp 64 = none := by
  exact ⟨rfl, rfl⟩

/-- A mid-rehash Dict with `2^n` main slots, a single entry in the last
slot, and the rehash cursor at 0 (the back table is fresh, as
`start_rehashing` allocates it). -/
def wideDict (n : Nat) : DictM :=
  DictM.mk (HTable.mk (List.replicate (2 ^ n - 1) [] ++ [[(2 ^ n - 1, 0)]]) 1 n)
    (some (HTable.mk (List.replicate (2 ^ (n + 1)) []) 0 (n + 1)))
    (some 0)

theorem list_getD_append_left {α} (l1 l2 : List α) (i : Nat) (d : α)
    (h : i < l1.length) : (l1 ++ l2).getD i d = l1.getD i d := by
  unfold List.getD
  rw [List.get?_eq_getElem?, List.get?_eq_getElem?, List.getElem?_append]
  rw [if_pos h]

theorem list_getD_append_right {α} (l1 l2 : List α) (i : Nat) (d : α)
    (h : l1.length ≤ i) : (l1 ++ l2).getD i d = l2.getD (i - l1.length) d := by
  unfold List.getD
  rw [List.get?_eq_getElem?, List.get?_eq_getElem?, List.getElem?_append]
  rw [if_neg (by omega)]

theorem list_getD_replicate {α} (k i : Nat) (x d : α) (h : i < k) :
    (List.replicate k x).getD i d = x := by
  unfold List.getD
  rw [List.get?_eq_getElem?, List.getElem?_replicate]
  simp [h]

/-- The rehash loop on a table whose only occupied slot is the last one:
every iteration up to the last slot sees an empty chain and moves on, so
the loop examines all `2^n - i` remaining slots before stopping. -/
theorem rehashLoop_wide (hash : Nat → Nat) (p : Nat × Nat) (n : Nat) (bt : HTable) :
    ∀ fuel i latest visited, i < 2 ^ n → 2 ^ n - i ≤ fuel →
      rehashLoop hash fuel i 1 latest visited
        (HTable.mk (List.replicate (2 ^ n - 1) [] ++ [[p]]) 1 n) (some bt)
      = some (HTable.mk ((List.replicate (2 ^ n - 1) [] ++ [[p]]).set (2 ^ n - 1) []) 0 n,
              some (migrateChain hash bt [p]), 2 ^ n - 1, visited + (2 ^ n - i)) := by
  intro fuel
  induction fuel with
  | zero =>
    intro i latest visited hi hfuel
    omega
  | succ f ih =>
    intro i latest visited hi hfuel
    have hlen : (List.replicate (2 ^ n - 1) ([] : Chain) ++ [[p]]).length = 2 ^ n := by
      simp only [List.length_append, List.length_replicate, List.length_singleton]
      have := Nat.one_le_two_pow (n := n)
      omega
    unfold rehashLoop
    simp only [hlen, hi, if_true]
    by_cases hlast : i = 2 ^ n - 1
    · subst hlast
      have hchain : (List.replicate (2 ^ n - 1) ([] : Chain) ++ [[p]]).getD (2 ^ n - 1) [] = [p] := by
        rw [list_getD_append_right _ _ _ _ (by simp)]
        simp
      simp only [hchain]
      have h1 : ([p] : Chain).isEmpty = false := rfl
      simp only [h1, Bool.false_eq_true, if_false]
      have hstep : (1 : Nat) - 1 = 0 := rfl
      norm_num
      have hv : 2 ^ n - (2 ^ n - 1) = 1 := by
        have := Nat.one_le_two_pow (n := n)
        omega
      rw [hv]
    · have hilt : i < 2 ^ n - 1 := by omega
      have hchain : (List.replicate (2 ^ n - 1) ([] : Chain) ++ [[p]]).getD i [] = [] := by
        rw [list_getD_append_left _ _ _ _ (by simpa using hilt)]
        exact list_getD_replicate _ _ _ _ hilt
      simp only [hchain]
      have h1 : ([] : Chain).isEmpty = true := rfl
      simp only [h1, if_true]
      rw [ih (i + 1) i (visited + 1) (by omega) (by omega)]
      have hv : visited + 1 + (2 ^ n - (i + 1)) = visited + (2 ^ n - i) := by omega
      rw [hv]

/-- C2.  A single rehash step is not bounded by a constant number of slot
visits: the source computes `(10*step + start).max(slots_cnt - 1)` (a
`max`, where its own comment about "10 empty slots per step" requires a
`min`), so on a mid-rehash Dict with `2^n` main slots whose only occupied
slot is the last one, one step with budget 1 examines all `2^n` slots —
growing without bound with the table, not a constant per unit of budget. -/
theorem dict_rehash_step_scans_whole_table (n : Nat) :
    ((wideDict n).tryRehashStep idHash 1).map Prod.snd = some (2 ^ n) := by
  unfold wideDict DictM.tryRehashStep
  simp only
  have hcnt : (HTable.mk (List.replicate (2 ^ n - 1) [] ++ [[(2 ^ n - 1, 0)]]) 1 n).slotsCnt
      = 2 ^ n := by
    unfold HTable.slotsCnt
    simp [Nat.shiftLeft_eq]
  rw [hcnt]
  have hfuel : 2 ^ n - 0 ≤ max (10 * 1 + 0) (2 ^ n - 1) + 1 - 0 := by
    have := Nat.one_le_two_pow (n := n)
    omega
  rw [rehashLoop_wide idHash (2 ^ n - 1, 0) n _ _ 0 0 0 (Nat.pos_of_ne_zero (by positivity)) hfuel]
  simp

/-! ## Skiplist (src/ds/skiplist/skiplist.rs)

Nodes live in an append-only heap indexed by `Nat` ids; a raw pointer is
an `Option Nat` (`none` = null).  Scores are `Int` (only comparisons are
performed on the `f64` scores; NaN never arises in the modelled runs) and
members are `Nat`.  The random level of `insert` is the explicit `level`
argument of `do_insert`, ranging over the outputs 1..=32 of
`random_level`.  Dereferencing an invalid id and out-of-range vector
indexing yield `none` (a crash/panic). -/

/-- The `Node` struct. -/
structure SLNode where
  score : Int
  data : Nat
  levels : List (Option Nat)
  spans : List Nat
  backward : Option Nat
deriving Repr, DecidableEq

/-- The `Skiplist` struct (the Bernoulli probability field is irrelevant
once the level is an argument). -/
structure SkiplistM where
  heap : List SLNode
  levelLinks : List (Option Nat)
  levelSpans : List Nat
  level : Nat
  length : Nat
deriving Repr, DecidableEq

/-- `Skiplist::new`. -/
def SkiplistM.new : SkiplistM := SkiplistM.mk [] [] [] 0 0

/-- `Node::new`. -/
def SLNode.new (data : Nat) (score : Int) (level : Nat) : SLNode :=
  SLNode.mk score data (List.replicate level none) (List.replicate level 0) none

/-- `Skiplist::cmp` on (score, member) pairs. -/
def slCmp (ls : Int) (ld : Nat) (rs : Int) (rd : Nat) : Ordering :=
  if ls < rs ∨ (ls = rs ∧ ld < rd) then Ordering.lt
  else if ls = rs ∧ ld = rd then Ordering.eq
  else Ordering.gt

/-- usize subtraction with the debug-build underflow panic. -/
def checkedSub (a b : Nat) : Option Nat :=
  if b ≤ a then some (a - b) else none

/-- Update the node at `id` through `f` (dereference of a raw node
pointer followed by a field write). -/
def SkiplistM.updNode (st : SkiplistM) (id : Nat) (f : SLNode → Option SLNode) :
    Option SkiplistM := do
  let nd ← st.heap.get? id
  let nd2 ← f nd
  some (SkiplistM.mk (st.heap.set id nd2) st.levelLinks st.levelSpans st.level st.length)

/-- `node.levels[lc] = v`. -/
def SkiplistM.setNodeLevel (st : SkiplistM) (id lc : Nat) (v : Option Nat) :
    Option SkiplistM :=
  st.updNode id (fun nd =>
    if lc < nd.levels.length then
      some (SLNode.mk nd.score nd.data (nd.levels.set lc v) nd.spans nd.backward)
    else none)

/-- `node.spans[lc] = v`. -/
def SkiplistM.setNodeSpan (st : SkiplistM) (id lc v : Nat) : Option SkiplistM :=
  st.updNode id (fun nd =>
    if lc < nd.spans.length then
      some (SLNode.mk nd.score nd.data nd.levels (nd.spans.set lc v) nd.backward)
    else none)

/-- `node.backward = v`. -/
def SkiplistM.setBackward (st : SkiplistM) (id : Nat) (v : Option Nat) :
    Option SkiplistM :=
  st.updNode id (fun nd => some (SLNode.mk nd.score nd.data nd.levels nd.spans v))

/-- `self.level_links[lc] = v` (head link write). -/
def SkiplistM.setHeadLink (st : SkiplistM) (lc : Nat) (v : Option Nat) :
    Option SkiplistM :=
  if lc < st.levelLinks.length then
    some (SkiplistM.mk st.heap (st.levelLinks.set lc v) st.levelSpans st.level st.length)
  else none

/-- `self.level_spans[lc] = v` (head span write). -/
def SkiplistM.setHeadSpan (st : SkiplistM) (lc v : Nat) : Option SkiplistM :=
  if lc < st.levelSpans.length then
    some (SkiplistM.mk st.heap st.levelLinks (st.levelSpans.set lc v) st.level st.length)
  else none

/-- The forward link seen from `slow` (the virtual head when `none`) at
level `lc`. -/
def SkiplistM.getLink (st : SkiplistM) (slow : Option Nat) (lc : Nat) :
    Option (Option Nat) :=
  match slow with
  | none => st.levelLinks.get? lc
  | some s => do
    let nd ← st.heap.get? s
    nd.levels.get? lc

/-- Write the forward link of `slow` (the virtual head when `none`) at
level `lc`. -/
def SkiplistM.setLink (st : SkiplistM) (slow : Option Nat) (lc : Nat) (v : Option Nat) :
    Option SkiplistM :=
  match slow with
  | none => st.setHeadLink lc v
  | some s => st.setNodeLevel s lc v

/-- The span seen from `slow` (the virtual head when `none`) at level `lc`. -/
def SkiplistM.getSpan (st : SkiplistM) (slow : Option Nat) (lc : Nat) : Option Nat :=
  match slow with
  | none => st.levelSpans.get? lc
  | some s => do
    let nd ← st.heap.get? s
    nd.spans.get? lc

/-- `span += delta` on `slow`'s (or the head's) span at level `lc`. -/
def SkiplistM.bumpSpan (st : SkiplistM) (slow : Option Nat) (lc : Nat) (delta : Nat) :
    Option SkiplistM := do
  let old ← st.getSpan slow lc
  match slow with
  | none => st.setHeadSpan lc (old + delta)
  | some s => st.setNodeSpan s lc (old + delta)

/-- The inner `while !next.is_null()` walk of `do_insert` at one level:
advance over smaller keys, splice on `Less` or at the chain's end, abort
on `Equal` (the boolean result; the mutations already made persist, as
they do through `&mut self` in the source). -/
def insertWalk (score : Int) (data : Nat) (newId lc : Nat) :
    Nat → SkiplistM → Option Nat → Option Nat →
    Option (SkiplistM × Option Nat × Bool)
  | 0, _, _, _ => none
  | fuel + 1, st, slow, next =>
    match next with
    | none => do
      -- reached the end: link `slow` (or the head) to the new node
      let st1 ← st.setLink slow lc (some newId)
      if lc = 0 then
        match slow with
        | some s => do
          let st2 ← st1.setBackward newId (some s)
          some (st2, slow, false)
        | none => some (st1, slow, false)
      else some (st1, slow, false)
    | some nid => do
      let nd ← st.heap.get? nid
      match slCmp score data nd.score nd.data with
      | .lt => do
        let st1 ← st.setNodeLevel newId lc (some nid)
        let st2 ← st1.setLink slow lc (some newId)
        if lc = 0 then do
          let st3 ← st2.setBackward nid (some newId)
          match slow with
          | some s => do
            let st4 ← st3.setBackward newId (some s)
            some (st4, slow, false)
          | none => some (st3, slow, false)
        else some (st2, slow, false)
      | .eq => some (st, slow, true)
      | .gt => do
        let nxt ← nd.levels.get? lc
        insertWalk score data newId lc fuel st (some nid) nxt
    
/-- The labelled descent loop of `do_insert`
(`for level_cursor in (0..level.min(self.level)).rev()`), threading the
`slow` cursor downwards; stops early on a duplicate. -/
def insertDescent (score : Int) (data : Nat) (newId : Nat) :
    Nat → SkiplistM → Option Nat → Option (SkiplistM × Bool)
  | 0, st, _ => some (st, false)
  | lc + 1, st, slow => do
    let next ← st.getLink slow lc
    let (st1, slow1, dup) ← insertWalk score data newId lc (st.heap.length + 1) st slow next
    if dup then some (st1, true)
    else insertDescent score data newId lc st1 slow1

/-- The `while !pre.is_null() && pre != slow` backward count in the span
fix-up of `do_insert`. -/
def backwardCount (st : SkiplistM) (slow : Option Nat) :
    Nat → Option Nat → Nat → Option Nat
  | 0, _, _ => none
  | fuel + 1, pre, acc =>
    match pre with
    | none => some acc
    | some pid =>
      if slow = some pid then some acc
      else do
        let nd ← st.heap.get? pid
        backwardCount st slow fuel nd.backward (acc + 1)

/-- One level of the `'out2` span fix-up loop of `do_insert`: walk to the
new node, then split the predecessor's span by the backward count.  A
null `next` before the new node is found means the source dereferences a
null `slow` (`none`). -/
def spanFixWalk (newId lc : Nat) :
    Nat → SkiplistM → Option Nat → Nat → Option Nat → Option SkiplistM
  | 0, _, _, _, _ => none
  | fuel + 1, st, slow, slowSpan, next =>
    match next with
    | none => none
    | some nid =>
      if nid = newId then do
        let newNd ← st.heap.get? newId
        let spanBefore ← backwardCount st slow (st.heap.length + 1) newNd.backward 0
        let spanAfter ← checkedSub slowSpan spanBefore
        let st1 ← st.setNodeSpan newId lc spanAfter
        match slow with
        | none => st1.setHeadSpan lc spanBefore
        | some s => st1.setNodeSpan s lc spanBefore
      else do
        let nd ← st.heap.get? nid
        let slowSpan2 ← nd.spans.get? lc
        let next2 ← nd.levels.get? lc
        spanFixWalk newId lc fuel st (some nid) slowSpan2 next2

/-- The `'out2` loop over levels `1..level` of `do_insert`. -/
def spanFixLevels (newId : Nat) : Nat → Nat → SkiplistM → Option SkiplistM
  | 0, _, st => some st
  | cnt + 1, lc, st => do
    let next0 ← st.levelLinks.get? lc
    let slowSpan0 ← st.levelSpans.get? lc
    let st1 ← spanFixWalk newId lc (st.heap.length + 1) st none slowSpan0 next0
    spanFixLevels newId cnt (lc + 1) st1

/-- One level of the `'out3` loop of `do_insert` (levels above the new
node's height): bump by one the span of the link that passes over the
insertion point. -/
def upperSpanWalk (score : Int) (data : Nat) (lc : Nat) :
    Nat → SkiplistM → Option Nat → Option Nat → Option SkiplistM
  | 0, _, _, _ => none
  | fuel + 1, st, slow, next =>
    match next with
    | none => st.bumpSpan slow lc 1
    | some nid => do
      let nd ← st.heap.get? nid
      if slCmp score data nd.score nd.data = Ordering.lt then st.bumpSpan slow lc 1
      else do
        let next2 ← nd.levels.get? lc
        upperSpanWalk score data lc fuel st (some nid) next2

/-- The `'out3` loop over levels `level..self.level` of `do_insert`. -/
def upperSpanLevels (score : Int) (data : Nat) : Nat → Nat → SkiplistM → Option SkiplistM
  | 0, _, st => some st
  | cnt + 1, lc, st => do
    let next0 ← st.levelLinks.get? lc
    let st1 ← upperSpanWalk score data lc (st.heap.length + 1) st none next0
    upperSpanLevels score data cnt (lc + 1) st1

/-- `Skiplist::do_insert` with the randomly chosen `level` explicit.  The
returned `Option Nat` is the `Option<*mut Node>` result (`none` =
duplicate rejected); any state mutations made before an abort persist. -/
def SkiplistM.doInsert (st : SkiplistM) (data : Nat) (score : Int) (level : Nat) :
    Option (SkiplistM × Option Nat) := do
  let newId := st.heap.length
  let heap1 := st.heap ++ [SLNode.new data score level]
  -- `for _ in self.level..level`: extend the head links/spans
  let links1 := st.levelLinks ++ List.replicate (level - st.level) (some newId)
  let spans1 := st.levelSpans ++ List.replicate (level - st.level) st.length
  let st1 := SkiplistM.mk heap1 links1 spans1 st.level st.length
  if st.length = 0 then
    some (SkiplistM.mk heap1 links1 spans1 level 1, some newId)
  else do
    let (st2, dup) ← insertDescent score data newId (min level st.level) st1 none
    if dup then some (st2, none)
    else do
      let st3 ← spanFixLevels newId (level - 1) 1 st2
      let st4 ← upperSpanLevels score data (st.level - level) level st3
      let newLevel := if st.level < level then level else st.level
      some (SkiplistM.mk st4.heap st4.levelLinks st4.levelSpans newLevel (st4.length + 1),
            some newId)

/-- A range bound (`Bound` in skiplist.rs). -/
structure SLBound where
  bound : Int
  exclusive : Bool
deriving Repr, DecidableEq

/-- `Bound::toggle`. -/
def SLBound.toggle (b : SLBound) : SLBound := SLBound.mk b.bound (!b.exclusive)

/-- The inner walk of `count_element_upto` at one level: accumulate
`span + 1` for every link staying at-or-under the bound. -/
def countUptoWalk (up : SLBound) (lc : Nat) :
    Nat → SkiplistM → Option Nat → Option Nat → Nat → Option (Nat × Option Nat)
  | 0, _, _, _, _ => none
  | fuel + 1, st, slow, next, count =>
    match next with
    | none => some (count, slow)
    | some nid => do
      let nd ← st.heap.get? nid
      let span ← st.getSpan slow lc
      if up.bound < nd.score ∨ (up.bound = nd.score ∧ up.exclusive) then
        some (count, slow)
      else do
        let next2 ← nd.levels.get? lc
        countUptoWalk up lc fuel st (some nid) next2 (count + span + 1)

/-- The level descent of `count_element_upto`. -/
def countUptoLevels (up : SLBound) :
    Nat → SkiplistM → Option Nat → Nat → Option Nat
  | 0, _, _, count => some count
  | lc + 1, st, slow, count => do
    let next ← st.getLink slow lc
    let (count2, slow2) ← countUptoWalk up lc (st.heap.length + 1) st slow next count
    countUptoLevels up lc st slow2 count2

/-- `Skiplist::count_element_upto`. -/
def SkiplistM.countElementUpto (st : SkiplistM) (up : SLBound) : Option Nat :=
  countUptoLevels up st.level st none 0

/-- `Skiplist::range_count`.  The two bounded combinations subtract
counts with a `usize` subtraction (`none` = debug-build underflow
panic). -/
def SkiplistM.rangeCount (st : SkiplistM) (mn mx : Option SLBound) : Option Nat :=
  match mn, mx with
  | none, none => some st.length
  | none, some mx => st.countElementUpto mx
  | some mn, none => do
    let c ← st.countElementUpto mn.toggle
    checkedSub st.length c
  | some mn, some mx => do
    let cmax ← st.countElementUpto mx
    let cmin ← st.countElementUpto mn.toggle
    checkedSub cmax cmin

/-- The level-0 chain of node ids, read from the head's level-0 link
(the reference enumeration of the stored elements). -/
def level0Walk (st : SkiplistM) : Nat → Option Nat → Option (List Nat)
  | 0, _ => none
  | _, none => some []
  | fuel + 1, some id => do
    let nd ← st.heap.get? id
    let nxt ← nd.levels.get? 0
    let rest ← level0Walk st fuel nxt
    some (id :: rest)

/-- The ids of all level-0 nodes in list order. -/
def SkiplistM.level0Ids (st : SkiplistM) : Option (List Nat) :=
  level0Walk st (st.heap.length + 1) (st.levelLinks.getD 0 none)

/-- The scores of all stored elements in list order. -/
def SkiplistM.level0Scores (st : SkiplistM) : Option (List Int) := do
  let ids ← st.level0Ids
  ids.mapM (fun id => (st.heap.get? id).map SLNode.score)

/-- Whether a score satisfies an optional bound (direct enumeration
semantics of the spec). -/
def satisfiesMin (mn : Option SLBound) (s : Int) : Bool :=
  match mn with
  | none => true
  | some b => if b.exclusive then b.bound < s else b.bound ≤ s

/-- As `satisfiesMin`, for the max bound. -/
def satisfiesMax (mx : Option SLBound) (s : Int) : Bool :=
  match mx with
  | none => true
  | some b => if b.exclusive then s < b.bound else s ≤ b.bound

/-- A one-element skiplist holding score 9 (member 0, height 1). -/
def slNine : Option (SkiplistM × Option Nat) := SkiplistM.new.doInsert 0 9 1

/-- The spec's worked example: scores 3, 7, 7 (different members), 19
inserted into an empty skiplist (heights 1, 2, 1, 1). -/
def slExample : Option (SkiplistM × Option Nat) :=
  (((SkiplistM.new.doInsert 0 3 1).bind
    (fun r => r.1.doInsert 1 7 2)).bind
    (fun r => r.1.doInsert 2 7 1)).bind
    (fun r => r.1.doInsert 3 19 1)

/-- C7.  `range_count` is not the bound-predicate count for every choice
of bounds: on a skiplist holding the single score 9, the bounds
min = inclusive 10, max = inclusive 8 satisfy neither predicate for any
element (direct enumeration gives 0), but the source computes
`count_element_upto(max) - count_element_upto(min.toggle()) = 0 - 1`, a
usize underflow — a panic in a debug build (`none`), a huge wrapped count
in release.  The worked example of the spec (3, 7, 7, 19 with
inclusive 7 / exclusive 19 giving 2, and `range_count(None, None)` = 4)
does hold, so the failure is specific to the subtraction. -/
theorem skiplist_range_count_underflows :
    slNine.bind (fun r => r.1.rangeCount (some (SLBound.mk 10 false)) (some (SLBound.mk 8 false)))
      = none ∧
    slNine.bind (fun r => (r.1.level0Scores).map
        (fun ss => (ss.filter (fun s => satisfiesMin (some (SLBound.mk 10 false)) s
          && satisfiesMax (some (SLBound.mk 8 false)) s)).length))
      = some 0 ∧
    slExample.bind (fun r => r.1.rangeCount (some (SLBound.mk 7 false)) (some (SLBound.mk 19 true)))
      = some 2 ∧
    slExample.bind (fun r => r.1.rangeCount none none) = some 4 ∧
    slExample.bind (fun r => r.1.level0Scores) = some [3, 7, 7, 19] := by
  refine ⟨?_, ?_, ?_, ?_, ?_⟩ <;> rfl

/-- The two-element skiplist (5, member 0, height 1) then (9, member 1,
height 2). -/
def slTwo : Option (SkiplistM × Option Nat) :=
  (SkiplistM.new.doInsert 0 5 1).bind (fun r => r.1.doInsert 1 9 2)

/-- The duplicate insert of (5, member 0) at level 2 into `slTwo`. -/
def slDup : Option (SkiplistM × Option Nat) :=
  slTwo.bind (fun r => r.1.doInsert 0 5 2)

/-- C8.  A duplicate insert does mutate the skiplist: re-inserting the
existing pair (score 5, member 0) with random level 2 splices the
rejected node into level 1 (the head's level-1 link changes from the node
of (9, member 1) to the fresh node) before the level-0 walk detects the
duplicate and aborts — `do_insert` returns `None`, and the public
`insert` discards even that, returning `()` rather than the `false` the
spec promises. -/
theorem skiplist_duplicate_insert_mutates :
    slDup.map Prod.snd = some none ∧
    slDup.map (fun r => r.1.levelLinks) = some [some 0, some 2] ∧
    slTwo.map (fun r => r.1.levelLinks) = some [some 0, some 1] ∧
    slDup.map (fun r => r.1.levelLinks) ≠ slTwo.map (fun r => r.1.levelLinks) := by
  refine ⟨rfl, rfl, rfl, by decide⟩

/-- C9.  The span/rank invariant fails in a reachable state: after the
duplicate insert of `slDup`, the head's level-1 link targets the rejected
half-spliced node (id 2), which does not occur among the level-0 nodes
([0, 1]), so the level-1 prefix of length one has a target with no
0-based rank at all — no span sum can equal it. -/
theorem skiplist_span_rank_invariant_broken :
    slDup.map (fun r => r.1.levelLinks.getD 1 none) = some (some 2) ∧
    slDup.bind (fun r => r.1.level0Ids) = some [0, 1] ∧
    ¬ (2 ∈ [0, 1]) := by
  refine ⟨rfl, rfl, by decide⟩

/-! ## C3: `value_cnt` counts the distinct keys present -/

/-- The keys of a chain, in order. -/
def keysOfChain (c : Chain) : List Nat := c.map Prod.fst

/-- All keys stored in a table, chain by chain. -/
def tableKeys (t : HTable) : List Nat := (t.slots.map keysOfChain).flatten

/-- The keys of the optional back table. -/
def backKeys (d : DictM) : List Nat :=
  match d.back with
  | some b => tableKeys b
  | none => []

/-- All keys stored in a Dict (main table then back table). -/
def dictKeys (d : DictM) : List Nat := tableKeys d.main ++ backKeys d

theorem keysOfChain_length (c : Chain) : (keysOfChain c).length = c.length := by
  simp [keysOfChain]

theorem chainInsert_not_mem (k v : Nat) (c : Chain) (h : k ∉ keysOfChain c) :
    chainInsert k v c = (c ++ [(k, v)], none) := by
  induction c with
  | nil => rfl
  | cons p t ih =>
    obtain ⟨k2, v2⟩ := p
    simp only [keysOfChain, List.map_cons, List.mem_cons] at h
    push_neg at h
    unfold chainInsert
    rw [if_neg (fun h2 => h.1 h2.symm)]
    rw [ih (by simpa [keysOfChain] using h.2)]
    rfl

theorem chainInsert_mem (k v : Nat) (c : Chain) (h : k ∈ keysOfChain c) :
    keysOfChain (chainInsert k v c).1 = keysOfChain c ∧ (chainInsert k v c).2 ≠ none := by
  induction c with
  | nil => simp [keysOfChain] at h
  | cons p t ih =>
    obtain ⟨k2, v2⟩ := p
    by_cases hk : k2 = k
    · subst hk
      unfold chainInsert
      simp [keysOfChain]
    · simp only [keysOfChain, List.map_cons, List.mem_cons] at h
      rcases h with h | h
      · exact absurd h.symm hk
      · unfold chainInsert
        rw [if_neg hk]
        have hres := ih (by simpa [keysOfChain] using h)
        constructor
        · simp only [keysOfChain, List.map_cons]
          have hkeys : keysOfChain (chainInsert k v t).1 = keysOfChain t := hres.1
          simp only [keysOfChain] at hkeys
          rw [hkeys]
        · exact hres.2

theorem chainRemove_not_mem (k : Nat) (c : Chain) (h : k ∉ keysOfChain c) :
    chainRemove k c = (c, none) := by
  induction c with
  | nil => rfl
  | cons p t ih =>
    obtain ⟨k2, v2⟩ := p
    simp only [keysOfChain, List.map_cons, List.mem_cons] at h
    push_neg at h
    unfold chainRemove
    rw [if_neg (fun h2 => h.1 h2.symm)]
    rw [ih (by simpa [keysOfChain] using h.2)]

theorem chainRemove_keys (k : Nat) (c : Chain) :
    keysOfChain (chainRemove k c).1 = (keysOfChain c).erase k := by
  induction c with
  | nil => rfl
  | cons p t ih =>
    obtain ⟨k2, v2⟩ := p
    unfold chainRemove
    by_cases hk : k2 = k
    · subst hk
      simp [keysOfChain, List.erase_cons_head]
    · rw [if_neg hk]
      have hne : (k2 == k) = false := by simp [hk]
      simp only [keysOfChain, List.map_cons, List.erase_cons, hne]
      simpa [keysOfChain] using ih

theorem chainRemove_mem_isSome (k : Nat) (c : Chain) (h : k ∈ keysOfChain c) :
    (chainRemove k c).2 ≠ none := by
  induction c with
  | nil => simp [keysOfChain] at h
  | cons p t ih =>
    obtain ⟨k2, v2⟩ := p
    unfold chainRemove
    by_cases hk : k2 = k
    · simp [hk]
    · rw [if_neg hk]
      simp only [keysOfChain, List.map_cons, List.mem_cons] at h
      rcases h with h | h
      · exact absurd h.symm hk
      · exact ih (by simpa [keysOfChain] using h)

theorem list_getD_set {α} (l : List α) (i j : Nat) (x d : α) :
    (l.set i x).getD j d = if i = j ∧ i < l.length then x else l.getD j d := by
  by_cases hij : i = j
  · subst hij
    by_cases hlen : i < l.length
    · simp only [hlen, and_true, if_pos rfl]
      rw [List.getD_eq_getElem _ _ (by simpa using hlen)]
      simp [List.getElem_set, if_pos rfl]
    · rw [List.set_eq_of_length_le (by omega)]
      simp [hlen]
  · rw [if_neg (by tauto)]
    by_cases hj : j < l.length
    · rw [List.getD_eq_getElem _ _ (by simpa using hj),
        List.getD_eq_getElem _ _ hj]
      simp [List.getElem_set, hij]
    · rw [List.getD_eq_default _ _ (by simpa using Nat.le_of_not_lt hj),
        List.getD_eq_default _ _ (Nat.le_of_not_lt hj)]

theorem flatten_map_set (l : List Chain) (i : Nat) (c2 : Chain) (h : i < l.length) :
    ((l.set i c2).map keysOfChain).flatten
      = ((l.take i).map keysOfChain).flatten ++ keysOfChain c2
        ++ ((l.drop (i + 1)).map keysOfChain).flatten := by
  rw [List.set_eq_take_append_cons_drop, if_pos h]
  rw [List.map_append, List.flatten_append, List.map_cons, List.flatten_cons,
    List.append_assoc]

theorem flatten_map_decomp (l : List Chain) (i : Nat) (h : i < l.length) :
    (l.map keysOfChain).flatten
      = ((l.take i).map keysOfChain).flatten ++ keysOfChain (l.getD i [])
        ++ ((l.drop (i + 1)).map keysOfChain).flatten := by
  have hgetd : l.getD i [] = l[i] := List.getD_eq_getElem _ _ h
  conv_lhs => rw [← List.take_append_drop i l, List.drop_eq_getElem_cons h]
  rw [List.map_append, List.flatten_append, List.map_cons, List.flatten_cons, hgetd,
    List.append_assoc]

/-- Well-formedness of one table: slot count matches the exponent, `cnt`
counts the stored nodes, every key sits in the slot its hash selects, and
no chain repeats a key. -/
structure TableWF (hash : Nat → Nat) (t : HTable) : Prop where
  len_slots : t.slots.length = 2 ^ t.exp
  cnt_eq : t.cnt = (tableKeys t).length
  positional : ∀ i, ∀ x ∈ keysOfChain (t.slots.getD i []), hash x % 2 ^ t.exp = i
  chains_nodup : ∀ i, (keysOfChain (t.slots.getD i [])).Nodup

theorem mem_tableKeys_iff (hash : Nat → Nat) (t : HTable) (hWF : TableWF hash t) (x : Nat) :
    x ∈ tableKeys t ↔ x ∈ keysOfChain (t.slots.getD (hash x % 2 ^ t.exp) []) := by
  constructor
  · intro hx
    rw [tableKeys, List.mem_flatten] at hx
    obtain ⟨l, hl, hxl⟩ := hx
    rw [List.mem_map] at hl
    obtain ⟨c, hc, rfl⟩ := hl
    rw [List.mem_iff_getElem] at hc
    obtain ⟨i, hi, rfl⟩ := hc
    have hgd : t.slots.getD i [] = t.slots[i] := List.getD_eq_getElem _ _ hi
    have hpos := hWF.positional i x (by rw [hgd]; exact hxl)
    rw [hpos, hgd]
    exact hxl
  · intro hx
    rw [tableKeys, List.mem_flatten]
    refine ⟨keysOfChain (t.slots.getD (hash x % 2 ^ t.exp) []), ?_, hx⟩
    rw [List.mem_map]
    refine ⟨t.slots.getD (hash x % 2 ^ t.exp) [], ?_, rfl⟩
    have hlt : hash x % 2 ^ t.exp < t.slots.length := by
      rw [hWF.len_slots]
      exact Nat.mod_lt _ (Nat.pos_pow_of_pos _ (by omega))
    rw [List.getD_eq_getElem _ _ hlt]
    exact List.getElem_mem hlt

theorem TableWF.keys_nodup {hash : Nat → Nat} {t : HTable} (hWF : TableWF hash t) :
    (tableKeys t).Nodup := by
  rw [tableKeys, List.nodup_flatten]
  constructor
  · intro l hl
    rw [List.mem_map] at hl
    obtain ⟨c, hc, rfl⟩ := hl
    rw [List.mem_iff_getElem] at hc
    obtain ⟨i, hi, rfl⟩ := hc
    have hgd : t.slots.getD i [] = t.slots[i] := List.getD_eq_getElem _ _ hi
    have := hWF.chains_nodup i
    rwa [hgd] at this
  · rw [List.pairwise_map, List.pairwise_iff_getElem]
    intro i j hi hj hij x hxi hxj
    have hgdi : t.slots.getD i [] = t.slots[i] := List.getD_eq_getElem _ _ hi
    have hgdj : t.slots.getD j [] = t.slots[j] := List.getD_eq_getElem _ _ hj
    have h1 := hWF.positional i x (by rw [hgdi]; exact hxi)
    have h2 := hWF.positional j x (by rw [hgdj]; exact hxj)
    omega

theorem nodup_append3_mid {a b c : List Nat} (h : ((a ++ b) ++ c).Nodup) (x : Nat)
    (hx : x ∈ b) : x ∉ a ∧ x ∉ c := by
  rw [List.nodup_append] at h
  obtain ⟨hab, hc, hd1⟩ := h
  rw [List.nodup_append] at hab
  obtain ⟨ha, hb, hd2⟩ := hab
  exact ⟨fun hxa => hd2 hxa hx, fun hxc => hd1 (by simp [List.mem_append, hx]) hxc⟩

theorem htInsert_slots (hash : Nat → Nat) (t : HTable) (k v : Nat) :
    (t.insert hash k v).1.slots
      = t.slots.set (hash k % 2 ^ t.exp)
          (chainInsert k v (t.slots.getD (hash k % 2 ^ t.exp) [])).1 := rfl

theorem htInsert_cnt (hash : Nat → Nat) (t : HTable) (k v : Nat) :
    (t.insert hash k v).1.cnt
      = (if (chainInsert k v (t.slots.getD (hash k % 2 ^ t.exp) [])).2 = none
         then t.cnt + 1 else t.cnt) := rfl

theorem htInsert_exp (hash : Nat → Nat) (t : HTable) (k v : Nat) :
    (t.insert hash k v).1.exp = t.exp := rfl

theorem htInsert_spec (hash : Nat → Nat) (t : HTable) (k v : Nat) (hWF : TableWF hash t) :
    TableWF hash (t.insert hash k v).1 ∧
    (∀ x, x ∈ tableKeys (t.insert hash k v).1 ↔ x = k ∨ x ∈ tableKeys t) ∧
    (t.insert hash k v).1.exp = t.exp := by
  have hpos2 : 0 < 2 ^ t.exp := Nat.pos_pow_of_pos _ (by omega)
  have hlt : hash k % 2 ^ t.exp < t.slots.length := by
    rw [hWF.len_slots]
    exact Nat.mod_lt _ hpos2
  have hdecomp := flatten_map_decomp t.slots (hash k % 2 ^ t.exp) hlt
  have hmemiff := mem_tableKeys_iff hash t hWF k
  by_cases hmem : k ∈ keysOfChain (t.slots.getD (hash k % 2 ^ t.exp) [])
  · -- key already present: replace in place, keys unchanged
    have hci := chainInsert_mem k v _ hmem
    have hkeys : tableKeys (t.insert hash k v).1 = tableKeys t := by
      unfold tableKeys
      rw [htInsert_slots, flatten_map_set _ _ _ hlt, hci.1, ← hdecomp]
    have hcnt : (t.insert hash k v).1.cnt = t.cnt := by
      rw [htInsert_cnt, if_neg hci.2]
    refine ⟨⟨?_, ?_, ?_, ?_⟩, ?_, rfl⟩
    · rw [htInsert_exp]
      rw [htInsert_slots, List.length_set]
      exact hWF.len_slots
    · rw [hcnt, hkeys]
      exact hWF.cnt_eq
    · intro j x hx
      rw [htInsert_exp]
      rw [htInsert_slots, list_getD_set] at hx
      by_cases hj : hash k % 2 ^ t.exp = j ∧ hash k % 2 ^ t.exp < t.slots.length
      · rw [if_pos hj] at hx
        rw [hci.1] at hx
        rw [← hj.1]
        exact hWF.positional _ x hx
      · rw [if_neg hj] at hx
        exact hWF.positional j x hx
    · intro j
      rw [htInsert_slots, list_getD_set]
      by_cases hj : hash k % 2 ^ t.exp = j ∧ hash k % 2 ^ t.exp < t.slots.length
      · rw [if_pos hj, hci.1]
        exact hWF.chains_nodup _
      · rw [if_neg hj]
        exact hWF.chains_nodup j
    · intro x
      rw [hkeys]
      constructor
      · exact Or.inr
      · rintro (rfl | hx)
        · exact hmemiff.mpr hmem
        · exact hx
  · -- fresh key: appended at the end of its chain
    have hci := chainInsert_not_mem k v _ hmem
    have hkc : keysOfChain (chainInsert k v (t.slots.getD (hash k % 2 ^ t.exp) [])).1
        = keysOfChain (t.slots.getD (hash k % 2 ^ t.exp) []) ++ [k] := by
      rw [hci]
      simp [keysOfChain]
    have hknot : k ∉ tableKeys t := fun hc => hmem (hmemiff.mp hc)
    have hkeys : tableKeys (t.insert hash k v).1
        = ((t.slots.take (hash k % 2 ^ t.exp)).map keysOfChain).flatten
          ++ (keysOfChain (t.slots.getD (hash k % 2 ^ t.exp) []) ++ [k])
          ++ ((t.slots.drop (hash k % 2 ^ t.exp + 1)).map keysOfChain).flatten := by
      unfold tableKeys
      rw [htInsert_slots, flatten_map_set _ _ _ hlt, hkc]
    have hcnt : (t.insert hash k v).1.cnt = t.cnt + 1 := by
      rw [htInsert_cnt, if_pos (by rw [hci])]
    refine ⟨⟨?_, ?_, ?_, ?_⟩, ?_, rfl⟩
    · rw [htInsert_exp, htInsert_slots, List.length_set]
      exact hWF.len_slots
    · rw [hcnt, hkeys, hWF.cnt_eq]
      conv_lhs => rw [tableKeys, hdecomp]
      simp only [List.length_append, List.length_singleton]
      omega
    · intro j x hx
      rw [htInsert_exp]
      rw [htInsert_slots, list_getD_set] at hx
      by_cases hj : hash k % 2 ^ t.exp = j ∧ hash k % 2 ^ t.exp < t.slots.length
      · rw [if_pos hj, hkc, List.mem_append, List.mem_singleton] at hx
        rcases hx with hx | rfl
        · rw [← hj.1]
          exact hWF.positional _ x hx
        · exact hj.1
      · rw [if_neg hj] at hx
        exact hWF.positional j x hx
    · intro j
      rw [htInsert_slots, list_getD_set]
      by_cases hj : hash k % 2 ^ t.exp = j ∧ hash k % 2 ^ t.exp < t.slots.length
      · rw [if_pos hj, hkc]
        refine List.Nodup.append (hWF.chains_nodup _) (List.nodup_singleton k) ?_
        intro y hy hyk
        rw [List.mem_singleton] at hyk
        subst hyk
        exact hmem hy
      · rw [if_neg hj]
        exact hWF.chains_nodup j
    · intro x
      rw [hkeys]
      conv_rhs => rw [tableKeys, hdecomp]
      simp only [List.mem_append, List.mem_singleton]
      tauto

theorem htRemove_spec (hash : Nat → Nat) (t : HTable) (k : Nat) (hWF : TableWF hash t) :
    TableWF hash (t.remove hash k).1 ∧
    tableKeys (t.remove hash k).1 = (tableKeys t).erase k ∧
    (t.remove hash k).1.exp = t.exp := by
  have hpos2 : 0 < 2 ^ t.exp := Nat.pos_pow_of_pos _ (by omega)
  have hlt : hash k % 2 ^ t.exp < t.slots.length := by
    rw [hWF.len_slots]
    exact Nat.mod_lt _ hpos2
  have hdecomp := flatten_map_decomp t.slots (hash k % 2 ^ t.exp) hlt
  have hmemiff := mem_tableKeys_iff hash t hWF k
  by_cases hmem : k ∈ keysOfChain (t.slots.getD (hash k % 2 ^ t.exp) [])
  · -- found: splice out, count down
    have hsome := chainRemove_mem_isSome k _ hmem
    have hkeyerase := chainRemove_keys k (t.slots.getD (hash k % 2 ^ t.exp) [])
    obtain ⟨v, hv⟩ : ∃ v, (chainRemove k (t.slots.getD (hash k % 2 ^ t.exp) [])).2 = some v := by
      cases hvv : (chainRemove k (t.slots.getD (hash k % 2 ^ t.exp) [])).2 with
      | none => exact absurd hvv hsome
      | some v => exact ⟨v, rfl⟩
    have hres : t.remove hash k
        = (HTable.mk (t.slots.set (hash k % 2 ^ t.exp)
              (chainRemove k (t.slots.getD (hash k % 2 ^ t.exp) [])).1)
            (t.cnt - 1) t.exp, some v) := by
      simp only [HTable.remove, hv]
    have hkmem : k ∈ tableKeys t := hmemiff.mpr hmem
    have hnodup := hWF.keys_nodup
    have hTK : tableKeys t
        = ((t.slots.take (hash k % 2 ^ t.exp)).map keysOfChain).flatten
          ++ keysOfChain (t.slots.getD (hash k % 2 ^ t.exp) [])
          ++ ((t.slots.drop (hash k % 2 ^ t.exp + 1)).map keysOfChain).flatten := by
      unfold tableKeys
      exact hdecomp
    have hknotJ1 := nodup_append3_mid (by rw [hTK] at hnodup; exact hnodup) k hmem
    have hkeys : tableKeys (t.remove hash k).1 = (tableKeys t).erase k := by
      rw [hres, hTK]
      show ((t.slots.set (hash k % 2 ^ t.exp)
          (chainRemove k (t.slots.getD (hash k % 2 ^ t.exp) [])).1).map keysOfChain).flatten = _
      rw [flatten_map_set _ _ _ hlt, hkeyerase]
      rw [List.erase_append, if_pos (List.mem_append.mpr (Or.inr hmem)),
        List.erase_append, if_neg hknotJ1.1]
    refine ⟨⟨?_, ?_, ?_, ?_⟩, hkeys, by rw [hres]⟩
    · rw [hres]
      simp only [List.length_set]
      exact hWF.len_slots
    · rw [hkeys]
      have hc1 : (t.remove hash k).1.cnt = t.cnt - 1 := by rw [hres]
      rw [hc1, List.length_erase_of_mem hkmem, hWF.cnt_eq]
    · intro j x hx
      rw [hres] at hx
      simp only at hx
      rw [list_getD_set] at hx
      rw [hres]
      simp only
      by_cases hj : hash k % 2 ^ t.exp = j ∧ hash k % 2 ^ t.exp < t.slots.length
      · rw [if_pos hj, hkeyerase] at hx
        rw [← hj.1]
        exact hWF.positional _ x (List.mem_of_mem_erase hx)
      · rw [if_neg hj] at hx
        exact hWF.positional j x hx
    · intro j
      rw [hres]
      simp only
      rw [list_getD_set]
      by_cases hj : hash k % 2 ^ t.exp = j ∧ hash k % 2 ^ t.exp < t.slots.length
      · rw [if_pos hj, hkeyerase]
        exact (hWF.chains_nodup _).erase k
      · rw [if_neg hj]
        exact hWF.chains_nodup j
  · -- not found: table untouched
    have hci := chainRemove_not_mem k _ hmem
    have hres : t.remove hash k = (t, none) := by
      simp only [HTable.remove, hci]
    have hknot : k ∉ tableKeys t := fun hc => hmem (hmemiff.mp hc)
    rw [hres]
    exact ⟨hWF, (List.erase_of_not_mem hknot).symm, rfl⟩

theorem htRemove_mem_iff (hash : Nat → Nat) (t : HTable) (k : Nat) (hWF : TableWF hash t) :
    ∀ x, x ∈ tableKeys (t.remove hash k).1 ↔ x ≠ k ∧ x ∈ tableKeys t := by
  intro x
  rw [(htRemove_spec hash t k hWF).2.1]
  exact hWF.keys_nodup.mem_erase_iff

theorem flatten_map_keys_replicate (n : Nat) :
    ((List.replicate n ([] : Chain)).map keysOfChain).flatten = [] := by
  induction n with
  | zero => rfl
  | succ m ih => simp [List.replicate_succ, keysOfChain, ih]

theorem replicate_getD_nil (n i : Nat) :
    (List.replicate n ([] : Chain)).getD i [] = [] := by
  by_cases hi : i < n
  · exact list_getD_replicate _ _ _ _ hi
  · exact List.getD_eq_default _ _ (by simpa using Nat.le_of_not_lt hi)

theorem tableKeys_empty (n e : Nat) :
    tableKeys (HTable.mk (List.replicate n []) 0 e) = [] := by
  unfold tableKeys
  exact flatten_map_keys_replicate n

theorem tableWF_empty (hash : Nat → Nat) (n e : Nat) (h : n = 2 ^ e) :
    TableWF hash (HTable.mk (List.replicate n []) 0 e) := by
  refine ⟨by simpa using h, ?_, ?_, ?_⟩
  · rw [tableKeys_empty]
    rfl
  · intro i x hx
    rw [show (HTable.mk (List.replicate n []) 0 e).slots = List.replicate n [] from rfl,
      replicate_getD_nil] at hx
    simp [keysOfChain] at hx
  · intro i
    rw [show (HTable.mk (List.replicate n []) 0 e).slots = List.replicate n [] from rfl,
      replicate_getD_nil]
    exact List.nodup_nil

theorem htWithCapacity_spec (hash : Nat → Nat) (size : Nat) (t : HTable)
    (h : htWithCapacity size = some t) :
    TableWF hash t ∧ tableKeys t = [] := by
  unfold htWithCapacity at h
  cases hce : computeExp size with
  | none => rw [hce] at h; simp at h
  | some e =>
    rw [hce] at h
    simp only [Option.bind_eq_bind, Option.some_bind, Option.some_inj] at h
    subst h
    constructor
    · exact tableWF_empty hash _ e (by rw [Nat.shiftLeft_eq, one_mul])
    · exact tableKeys_empty _ e

theorem migrateChain_spec (hash : Nat → Nat) :
    ∀ (chain : Chain) (b : HTable), TableWF hash b →
      (keysOfChain chain).Nodup →
      (∀ x ∈ keysOfChain chain, x ∉ tableKeys b) →
      TableWF hash (migrateChain hash b chain) ∧
      (∀ x, x ∈ tableKeys (migrateChain hash b chain) ↔
        x ∈ tableKeys b ∨ x ∈ keysOfChain chain) := by
  intro chain
  induction chain with
  | nil =>
    intro b hWF _ _
    exact ⟨hWF, by simp [migrateChain, keysOfChain]⟩
  | cons p t ih =>
    intro b hWF hnd hfresh
    obtain ⟨k, v⟩ := p
    have hmk : keysOfChain ((k, v) :: t) = k :: keysOfChain t := rfl
    rw [hmk] at hnd hfresh
    rw [List.nodup_cons] at hnd
    have hins := htInsert_spec hash b k v hWF
    have hfresh2 : ∀ x ∈ keysOfChain t, x ∉ tableKeys (b.insert hash k v).1 := by
      intro x hx hmem
      rcases (hins.2.1 x).mp hmem with rfl | hxb
      · exact hnd.1 hx
      · exact hfresh x (List.mem_cons_of_mem _ hx) hxb
    have ihr := ih (b.insert hash k v).1 hins.1 hnd.2 hfresh2
    constructor
    · show TableWF hash (migrateChain hash (b.insert hash k v).1 t)
      exact ihr.1
    · intro x
      show x ∈ tableKeys (migrateChain hash (b.insert hash k v).1 t) ↔ _
      rw [ihr.2 x, hins.2.1 x, hmk, List.mem_cons]
      tauto

/-- The invariant carried through the rehash loop: the main table and the
(optional) back table are each well-formed and share no key. -/
def RLInv (hash : Nat → Nat) (m : HTable) (b : Option HTable) : Prop :=
  TableWF hash m ∧
  (∀ bt, b = some bt → TableWF hash bt ∧ ∀ x, x ∈ tableKeys m → x ∉ tableKeys bt)

theorem rehashLoop_preserves (hash : Nat → Nat) :
    ∀ fuel idx step latest visited m b r,
      RLInv hash m b →
      rehashLoop hash fuel idx step latest visited m b = some r →
      RLInv hash r.1 r.2.1 := by
  intro fuel
  induction fuel with
  | zero =>
    intro idx step latest visited m b r hInv hr
    unfold rehashLoop at hr
    rw [Option.some_inj] at hr
    rw [← hr]
    exact hInv
  | succ f ih =>
    intro idx step latest visited m b r hInv hr
    unfold rehashLoop at hr
    by_cases hidx : idx < m.slots.length
    · rw [if_pos hidx] at hr
      by_cases hemp : (m.slots.getD idx []).isEmpty
      · rw [if_pos hemp] at hr
        exact ih _ _ _ _ _ _ _ hInv hr
      · rw [if_neg hemp] at hr
        cases hb : b with
        | none => rw [hb] at hr; exact absurd hr (by simp)
        | some bt =>
          rw [hb] at hr
          simp only at hr
          obtain ⟨hWFm, hbtAll⟩ := hInv
          obtain ⟨hWFbt, hdisj⟩ := hbtAll bt hb
          -- the chain being migrated
          have hsub : ∀ x ∈ keysOfChain (m.slots.getD idx []), x ∈ tableKeys m := by
            intro x hx
            rw [mem_tableKeys_iff hash m hWFm x]
            rw [hWFm.positional idx x hx]
            exact hx
          have hmig := migrateChain_spec hash (m.slots.getD idx []) bt hWFbt
            (hWFm.chains_nodup idx) (fun x hx => hdisj x (hsub x hx))
          -- the shrunken main table
          have hdecomp := flatten_map_decomp m.slots idx hidx
          have hsetkeys : tableKeys (HTable.mk (m.slots.set idx [])
              (m.cnt - (m.slots.getD idx []).length) m.exp)
              = ((m.slots.take idx).map keysOfChain).flatten
                ++ ((m.slots.drop (idx + 1)).map keysOfChain).flatten := by
            unfold tableKeys
            show ((m.slots.set idx []).map keysOfChain).flatten = _
            rw [flatten_map_set _ _ _ hidx]
            simp [keysOfChain]
          have hlenkeys : (tableKeys m).length
              = (((m.slots.take idx).map keysOfChain).flatten).length
                + (m.slots.getD idx []).length
                + (((m.slots.drop (idx + 1)).map keysOfChain).flatten).length := by
            rw [tableKeys, hdecomp]
            simp only [List.length_append, keysOfChain_length]
          have hWFm2 : TableWF hash (HTable.mk (m.slots.set idx [])
              (m.cnt - (m.slots.getD idx []).length) m.exp) := by
            refine ⟨?_, ?_, ?_, ?_⟩
            · show (m.slots.set idx []).length = 2 ^ m.exp
              rw [List.length_set]
              exact hWFm.len_slots
            · show m.cnt - (m.slots.getD idx []).length = _
              rw [hsetkeys]
              simp only [List.length_append]
              rw [← hWFm.cnt_eq] at hlenkeys
              omega
            · intro j x hx
              simp only at hx ⊢
              rw [list_getD_set] at hx
              by_cases hj : idx = j ∧ idx < m.slots.length
              · rw [if_pos hj] at hx
                simp [keysOfChain] at hx
              · rw [if_neg hj] at hx
                exact hWFm.positional j x hx
            · intro j
              simp only
              rw [list_getD_set]
              by_cases hj : idx = j ∧ idx < m.slots.length
              · rw [if_pos hj]
                exact List.nodup_nil
              · rw [if_neg hj]
                exact hWFm.chains_nodup j
          have hm2sub : ∀ x, x ∈ tableKeys (HTable.mk (m.slots.set idx [])
              (m.cnt - (m.slots.getD idx []).length) m.exp) →
              x ∈ tableKeys m ∧ x ∉ keysOfChain (m.slots.getD idx []) := by
            intro x hx
            have hTKm : tableKeys m = ((m.slots.take idx).map keysOfChain).flatten
                ++ keysOfChain (m.slots.getD idx [])
                ++ ((m.slots.drop (idx + 1)).map keysOfChain).flatten := by
              unfold tableKeys
              exact hdecomp
            constructor
            · rw [hsetkeys, List.mem_append] at hx
              rw [hTKm]
              rcases hx with hx | hx
              · exact List.mem_append.mpr (Or.inl (List.mem_append.mpr (Or.inl hx)))
              · exact List.mem_append.mpr (Or.inr hx)
            · intro hxc
              have hx2 := (mem_tableKeys_iff hash _ hWFm2 x).mp hx
              have hpos := hWFm.positional idx x hxc
              simp only at hx2
              rw [list_getD_set] at hx2
              have hje : idx = hash x % 2 ^ m.exp ∧ idx < m.slots.length :=
                ⟨hpos.symm, hidx⟩
              rw [if_pos hje] at hx2
              simp [keysOfChain] at hx2
          have hInv2 : RLInv hash
              (HTable.mk (m.slots.set idx []) (m.cnt - (m.slots.getD idx []).length) m.exp)
              (some (migrateChain hash bt (m.slots.getD idx []))) := by
            refine ⟨hWFm2, ?_⟩
            rintro bt2 hbt2
            rw [Option.some_inj] at hbt2
            subst hbt2
            refine ⟨hmig.1, ?_⟩
            intro x hx hxb
            obtain ⟨hxm, hxc⟩ := hm2sub x hx
            rcases (hmig.2 x).mp hxb with hxbt | hxchain
            · exact hdisj x hxm hxbt
            · exact hxc hxchain
          by_cases hstep : step = 0
          · rw [if_pos hstep] at hr
            exact absurd hr (by simp)
          · rw [if_neg hstep] at hr
            by_cases hdone : step - 1 = 0 ∨ m.cnt - (m.slots.getD idx []).length = 0
            · rw [if_pos (by simpa using hdone)] at hr
              rw [Option.some_inj] at hr
              rw [← hr]
              exact hInv2
            · rw [if_neg (by simpa using hdone)] at hr
              exact ih _ _ _ _ _ _ _ hInv2 hr
    · rw [if_neg hidx] at hr
      exact absurd hr (by simp)

/-- Well-formedness of a whole Dict: both tables well-formed, no key in
both, and a back table only while a rehash cursor exists. -/
structure DictWF (hash : Nat → Nat) (d : DictM) : Prop where
  mainWF : TableWF hash d.main
  backWF : ∀ bt, d.back = some bt → TableWF hash bt
  disj : ∀ x, x ∈ tableKeys d.main → x ∉ backKeys d
  coupled : d.rehashIdx = none → d.back = none

theorem tryRehashStep_preserves (hash : Nat → Nat) (step : Nat) (d : DictM)
    (hWF : DictWF hash d) :
    ∀ r, d.tryRehashStep hash step = some r → DictWF hash r.1 := by
  intro r hr
  unfold DictM.tryRehashStep at hr
  cases hidx : d.rehashIdx with
  | none =>
    rw [hidx] at hr
    simp only [Option.some_inj] at hr
    rw [← hr]
    exact hWF
  | some startIdx =>
    rw [hidx] at hr
    simp only at hr
    cases hloop : rehashLoop hash (max (10 * step + startIdx) (d.main.slotsCnt - 1) + 1 - startIdx)
        startIdx step startIdx 0 d.main d.back with
    | none => rw [hloop] at hr; exact absurd hr (by simp)
    | some q =>
      rw [hloop] at hr
      obtain ⟨m2, b2, latest, visited⟩ := q
      have hInv : RLInv hash d.main d.back := by
        refine ⟨hWF.mainWF, ?_⟩
        intro bt hbt
        refine ⟨hWF.backWF bt hbt, ?_⟩
        intro x hx
        have := hWF.disj x hx
        rw [backKeys, hbt] at this
        exact this
      have hpost := rehashLoop_preserves hash _ _ _ _ _ _ _ _ hInv hloop
      simp only at hr hpost
      by_cases hfin : m2.cnt = 0 ∨ latest ≥ m2.slotsCnt
      · rw [if_pos hfin] at hr
        cases hb2 : b2 with
        | none => rw [hb2] at hr; exact absurd hr (by simp)
        | some bt2 =>
          rw [hb2] at hr
          simp only [Option.some_inj] at hr
          rw [← hr]
          refine ⟨(hpost.2 bt2 hb2).1, ?_, ?_, ?_⟩
          · intro bt hbt
            exact absurd hbt (by simp)
          · intro x hx
            rw [backKeys]
            simp
          · intro _
            rfl
      · rw [if_neg hfin] at hr
        simp only [Option.some_inj] at hr
        rw [← hr]
        refine ⟨hpost.1, ?_, ?_, ?_⟩
        · intro bt hbt
          exact (hpost.2 bt hbt).1
        · intro x hx
          rw [backKeys]
          cases hb2 : b2 with
          | none => simp
          | some bt2 =>
            simp only
            exact (hpost.2 bt2 hb2).2 x hx
        · intro hc
          exact absurd hc (by simp)

theorem startRehashing_preserves (hash : Nat → Nat) (d : DictM) (hWF : DictWF hash d) :
    ∀ d2, d.startRehashing = some d2 → DictWF hash d2 := by
  intro d2 h2
  unfold DictM.startRehashing at h2
  by_cases hre : d.isRehashing
  · rw [if_pos hre, Option.some_inj] at h2
    rw [← h2]
    exact hWF
  · rw [if_neg hre] at h2
    cases hcap : htWithCapacity (2 * d.main.slotsCnt) with
    | none => rw [hcap] at h2; exact absurd h2 (by simp)
    | some bt =>
      rw [hcap] at h2
      simp only [Option.bind_eq_bind, Option.some_bind, Option.some_inj] at h2
      rw [← h2]
      have hbt := htWithCapacity_spec hash _ bt hcap
      refine ⟨hWF.mainWF, ?_, ?_, ?_⟩
      · intro b hb
        rw [Option.some_inj] at hb
        rw [← hb]
        exact hbt.1
      · intro x hx
        rw [backKeys]
        simp only [hbt.2]
        simp
      · intro hc
        exact absurd hc (by simp)

theorem dictInsert_preserves (hash : Nat → Nat) (d : DictM) (k v : Nat)
    (hWF : DictWF hash d) :
    ∀ r, d.insert hash k v = some r → DictWF hash r.1 := by
  intro r hr
  unfold DictM.insert at hr
  cases hstep : d.tryRehashStep hash 1 with
  | none => rw [hstep] at hr; exact absurd hr (by simp)
  | some q =>
    rw [hstep] at hr
    obtain ⟨d1, vis⟩ := q
    have hWF1 : DictWF hash d1 := tryRehashStep_preserves hash 1 d hWF _ hstep
    simp only [Option.bind_eq_bind, Option.some_bind] at hr
    cases hidx : d1.rehashIdx with
    | some si =>
      rw [hidx] at hr
      simp only at hr
      cases hb : d1.back with
      | none => rw [hb] at hr; exact absurd hr (by simp)
      | some b =>
        rw [hb] at hr
        simp only [Option.some_inj] at hr
        rw [← hr]
        have hrem := htRemove_spec hash d1.main k hWF1.mainWF
        have hremmem := htRemove_mem_iff hash d1.main k hWF1.mainWF
        have hbWF := hWF1.backWF b hb
        have hins := htInsert_spec hash b k v hbWF
        refine ⟨hrem.1, ?_, ?_, ?_⟩
        · intro bt hbt
          rw [Option.some_inj] at hbt
          rw [← hbt]
          exact hins.1
        · intro x hx
          rw [backKeys]
          simp only
          intro hxb
          obtain ⟨hxk, hxm⟩ := (hremmem x).mp hx
          rcases (hins.2.1 x).mp hxb with rfl | hxb2
          · exact hxk rfl
          · have := hWF1.disj x hxm
            rw [backKeys, hb] at this
            exact this hxb2
        · intro hc
          simp at hc
    | none =>
      rw [hidx] at hr
      simp only at hr
      have hins := htInsert_spec hash d1.main k v hWF1.mainWF
      have hbnone : d1.back = none := hWF1.coupled hidx
      by_cases hcond : (d1.main.insert hash k v).2 = none ∧ (d1.main.insert hash k v).1.needExpand
      · rw [if_pos hcond] at hr
        cases hsr : (DictM.mk (d1.main.insert hash k v).1 d1.back none).startRehashing with
        | none => rw [hsr] at hr; exact absurd hr (by simp)
        | some d2 =>
          rw [hsr] at hr
          simp only [Option.bind_eq_bind, Option.some_bind, Option.some_inj] at hr
          rw [← hr]
          refine startRehashing_preserves hash _ ?_ d2 hsr
          refine ⟨hins.1, ?_, ?_, ?_⟩
          · intro bt hbt
            rw [hbnone] at hbt
            exact absurd hbt (by simp)
          · intro x hx
            rw [backKeys]
            simp only [hbnone]
            simp
          · intro _
            exact hbnone
      · rw [if_neg hcond] at hr
        simp only [Option.some_inj] at hr
        rw [← hr]
        refine ⟨hins.1, ?_, ?_, ?_⟩
        · intro bt hbt
          rw [hbnone] at hbt
          exact absurd hbt (by simp)
        · intro x hx
          rw [backKeys]
          simp only [hbnone]
          simp
        · intro _
          exact hbnone

theorem dictRemove_preserves (hash : Nat → Nat) (d : DictM) (k : Nat)
    (hWF : DictWF hash d) :
    ∀ r, d.remove hash k = some r → DictWF hash r.1 := by
  intro r hr
  unfold DictM.remove at hr
  cases hstep : d.tryRehashStep hash 1 with
  | none => rw [hstep] at hr; exact absurd hr (by simp)
  | some q =>
    rw [hstep] at hr
    obtain ⟨d1, vis⟩ := q
    have hWF1 : DictWF hash d1 := tryRehashStep_preserves hash 1 d hWF _ hstep
    simp only [Option.bind_eq_bind, Option.some_bind] at hr
    cases hb : d1.back with
    | some b =>
      rw [hb] at hr
      simp only at hr
      have hbWF := hWF1.backWF b hb
      have hbrem := htRemove_spec hash b k hbWF
      by_cases hfound : ((b.remove hash k).2).isSome
      · rw [if_pos hfound, Option.some_inj] at hr
        rw [← hr]
        refine ⟨hWF1.mainWF, ?_, ?_, ?_⟩
        · intro bt hbt
          rw [Option.some_inj] at hbt
          rw [← hbt]
          exact hbrem.1
        · intro x hx
          rw [backKeys]
          simp only
          intro hxb
          rw [hbrem.2.1] at hxb
          have hxbt := List.mem_of_mem_erase hxb
          have := hWF1.disj x hx
          rw [backKeys, hb] at this
          exact this hxbt
        · intro hc
          have := hWF1.coupled hc
          rw [hb] at this
          exact absurd this (by simp)
      · rw [if_neg hfound, Option.some_inj] at hr
        rw [← hr]
        have hmrem := htRemove_spec hash d1.main k hWF1.mainWF
        have hmremmem := htRemove_mem_iff hash d1.main k hWF1.mainWF
        refine ⟨hmrem.1, ?_, ?_, ?_⟩
        · intro bt hbt
          rw [Option.some_inj] at hbt
          rw [← hbt]
          exact hbrem.1
        · intro x hx
          rw [backKeys]
          simp only
          intro hxb
          rw [hbrem.2.1] at hxb
          have hxbt := List.mem_of_mem_erase hxb
          have hxm := ((hmremmem x).mp hx).2
          have := hWF1.disj x hxm
          rw [backKeys, hb] at this
          exact this hxbt
        · intro hc
          have := hWF1.coupled hc
          rw [hb] at this
          exact absurd this (by simp)
    | none =>
      rw [hb] at hr
      simp only [Option.some_inj] at hr
      rw [← hr]
      have hmrem := htRemove_spec hash d1.main k hWF1.mainWF
      refine ⟨hmrem.1, ?_, ?_, ?_⟩
      · intro bt hbt
        simp at hbt
      · intro x hx
        simp [backKeys]
      · intro _
        rfl

theorem dictGet_preserves (hash : Nat → Nat) (d : DictM) (k : Nat)
    (hWF : DictWF hash d) :
    ∀ r, d.get hash k = some r → DictWF hash r.1 := by
  intro r hr
  unfold DictM.get at hr
  by_cases hz : d.valueCnt = 0
  · rw [if_pos hz, Option.some_inj] at hr
    rw [← hr]
    exact hWF
  · rw [if_neg hz] at hr
    cases hstep : d.tryRehashStep hash 1 with
    | none => rw [hstep] at hr; exact absurd hr (by simp)
    | some q =>
      rw [hstep] at hr
      obtain ⟨d1, vis⟩ := q
      simp only [Option.bind_eq_bind, Option.some_bind, Option.some_inj] at hr
      rw [← hr]
      exact tryRehashStep_preserves hash 1 d hWF _ hstep

theorem dictWF_conclusion (hash : Nat → Nat) (d : DictM) (h : DictWF hash d) :
    (dictKeys d).Nodup ∧ d.valueCnt = (dictKeys d).length := by
  have hmain := h.mainWF
  constructor
  · rw [dictKeys]
    refine List.Nodup.append hmain.keys_nodup ?_ ?_
    · rw [backKeys]
      cases hb : d.back with
      | none => exact List.nodup_nil
      | some bt => exact (h.backWF bt hb).keys_nodup
    · intro x hx hxb
      exact h.disj x hx hxb
  · rw [dictKeys, List.length_append, DictM.valueCnt, hmain.cnt_eq, backKeys]
    cases hb : d.back with
    | none => simp
    | some bt =>
      simp only
      rw [(h.backWF bt hb).cnt_eq]

theorem runDOp_preserves (hash : Nat → Nat) (d : DictM) (op : DOp) (hWF : DictWF hash d) :
    ∀ d2, runDOp hash d op = some d2 → DictWF hash d2 := by
  intro d2 h2
  cases op with
  | ins k v =>
    simp only [runDOp] at h2
    cases hr : d.insert hash k v with
    | none => rw [hr] at h2; exact absurd h2 (by simp)
    | some q =>
      rw [hr] at h2
      have h2b : some q.1 = some d2 := h2
      rw [Option.some_inj] at h2b
      rw [← h2b]
      exact dictInsert_preserves hash d k v hWF q hr
  | rem k =>
    simp only [runDOp] at h2
    cases hr : d.remove hash k with
    | none => rw [hr] at h2; exact absurd h2 (by simp)
    | some q =>
      rw [hr] at h2
      have h2b : some q.1 = some d2 := h2
      rw [Option.some_inj] at h2b
      rw [← h2b]
      exact dictRemove_preserves hash d k hWF q hr
  | getOp k =>
    simp only [runDOp] at h2
    cases hr : d.get hash k with
    | none => rw [hr] at h2; exact absurd h2 (by simp)
    | some q =>
      rw [hr] at h2
      have h2b : some q.1 = some d2 := h2
      rw [Option.some_inj] at h2b
      rw [← h2b]
      exact dictGet_preserves hash d k hWF q hr

theorem foldlM_preserves (hash : Nat → Nat) :
    ∀ (ops : List DOp) (d0 d : DictM), DictWF hash d0 →
      ops.foldlM (runDOp hash) d0 = some d → DictWF hash d := by
  intro ops
  induction ops with
  | nil =>
    intro d0 d h0 hfold
    rw [List.foldlM_nil] at hfold
    have hfb : some d0 = some d := hfold
    rw [Option.some_inj] at hfb
    rw [← hfb]
    exact h0
  | cons op rest ih =>
    intro d0 d h0 hfold
    rw [List.foldlM_cons] at hfold
    cases hr : runDOp hash d0 op with
    | none => rw [hr] at hfold; exact absurd hfold (by simp)
    | some d1 =>
      rw [hr] at hfold
      simp only [Option.bind_eq_bind, Option.some_bind] at hfold
      exact ih d1 d (runDOp_preserves hash d0 op h0 d1 hr) hfold

theorem dictNew_WF (hash : Nat → Nat) :
    ∀ d0, dictNew = some d0 → DictWF hash d0 := by
  intro d0 h0
  have hval : dictNew = some (DictM.mk (HTable.mk (List.replicate 4 []) 0 2) none none) := rfl
  rw [hval, Option.some_inj] at h0
  rw [← h0]
  refine ⟨tableWF_empty hash 4 2 (by decide), ?_, ?_, ?_⟩
  · intro bt hbt
    exact absurd hbt (by simp)
  · intro x hx
    simp [backKeys]
  · intro _
    rfl

/-- C3.  After every sequence of Dict operations (insert, remove, get)
from `Dict::new` that completes without a panic, the keys held across the
two tables are pairwise distinct — each present key counted exactly once,
whether it sits in the main or the back table, rehash in flight or not —
and `value_cnt()` equals their number.  Holds for every hasher. -/
theorem dict_value_cnt_counts_distinct_keys (hash : Nat → Nat) (ops : List DOp) (d : DictM)
    (h : runDOps hash ops = some d) :
    (dictKeys d).Nodup ∧ d.valueCnt = (dictKeys d).length := by
  unfold runDOps at h
  have hval : dictNew = some (DictM.mk (HTable.mk (List.replicate 4 []) 0 2) none none) := rfl
  rw [hval] at h
  simp only [Option.bind_eq_bind, Option.some_bind] at h
  exact dictWF_conclusion hash d
    (foldlM_preserves hash ops _ d (dictNew_WF hash _ hval) h)

/-- A concrete run for the C3 witness: two inserts, an overwrite, one
removal, under the identity hasher. -/
def dictDemo : DictM :=
  (runDOps idHash [DOp.ins 1 10, DOp.ins 2 20, DOp.ins 1 11, DOp.rem 2]).getD
    (DictM.mk (HTable.mk [] 0 0) none none)

/-- Witness for C3: the theorem applied to the concrete run `dictDemo`. -/
theorem dict_value_cnt_counts_distinct_keys_witness :
    (dictKeys dictDemo).Nodup ∧ dictDemo.valueCnt = (dictKeys dictDemo).length :=
  dict_value_cnt_counts_distinct_keys idHash
    [DOp.ins 1 10, DOp.ins 2 20, DOp.ins 1 11, DOp.rem 2] dictDemo rfl
